import Mathlib

/-!
Shallow embedding of the org-roam to obsidian converter.

The repository has two versions of the converter:
  - the packaged one in orgroam2obsidian/convert.py (used by the tests), and
  - a legacy one at the repository root, convert.py.

Strings are modelled as lists of unicode characters (Python str semantics).
A document is a list of lines; each line is modelled without its trailing
newline character, and joining content lines re-appends one newline per line
(Python readlines/join for a newline-terminated file).  Whitespace is the
ASCII whitespace set recognised by the regular-expression class backslash-s.
-/

namespace Org2Obs

abbrev Line := List Char

/-- Whitespace characters for the regex class of whitespace and for
str.strip() on Python str values: the Unicode whitespace set of CPython
(Py_UNICODE_ISSPACE), which both share: the ASCII range 0x09-0x0D, the
separators 0x1C-0x1F, the space, NEL, NBSP, Ogham space mark, the Unicode
space separators 0x2000-0x200A, the line and paragraph separators, the
narrow no-break space, the medium mathematical space and the ideographic
space. -/
def isWsChar (c : Char) : Bool :=
  (9 ≤ c.toNat && c.toNat ≤ 13) || (28 ≤ c.toNat && c.toNat ≤ 32) ||
  c.toNat = 133 || c.toNat = 160 || c.toNat = 5760 ||
  (8192 ≤ c.toNat && c.toNat ≤ 8202) || c.toNat = 8232 || c.toNat = 8233 ||
  c.toNat = 8239 || c.toNat = 8287 || c.toNat = 12288

/-- Python str.strip(): remove leading and trailing whitespace. -/
def strip (l : Line) : Line :=
  ((l.dropWhile isWsChar).reverse.dropWhile isWsChar).reverse

/-- One extracted note record (class Note in both convert.py versions). -/
structure Note where
  id : List Char
  title : List Char
  content : List Char
  level : Nat
  attachments : List (List Char)
deriving Repr, DecidableEq

/-- Literal line delimiting the start of a property drawer. -/
def pPROPERTIES : Line := (":PROPERTIES:").toList

/-- Literal line delimiting the end of a property drawer. -/
def pEND : Line := (":END:").toList

/-- The property key carrying the identifier. -/
def pID : Line := ("ID").toList

/-- Greedy backtracking for a dot-plus group after a star-quantified
whitespace group that must consume at least one character: try the largest
whitespace count first, going down to one.  The dot never matches a newline. -/
def titleFrom (rest : Line) : Nat → Option Line
  | 0 => none
  | k + 1 =>
    match (rest.drop (k + 1)).head? with
    | some c =>
      if c = '\n' then titleFrom rest k
      else some ((rest.drop (k + 1)).takeWhile (fun d => d ≠ '\n'))
    | none => titleFrom rest k

/-- Same backtracking search but the whitespace group may also be empty
(a star quantifier), so the count zero is tried last. -/
def captureFrom (rest : Line) : Nat → Option Line
  | 0 =>
    match rest.head? with
    | some c =>
      if c = '\n' then none
      else some (rest.takeWhile (fun d => d ≠ '\n'))
    | none => none
  | k + 1 =>
    match (rest.drop (k + 1)).head? with
    | some c =>
      if c = '\n' then captureFrom rest k
      else some ((rest.drop (k + 1)).takeWhile (fun d => d ≠ '\n'))
    | none => captureFrom rest k

/-- Heading regex of both converters: one or more stars, whitespace, and a
nonempty title group.  Returns the level (length of the star run) and the
captured title. -/
def headingMatch (l : Line) : Option (Nat × Line) :=
  let stars := l.takeWhile (fun c => c = '*')
  if stars = [] then none
  else
    let rest := l.drop stars.length
    let m := (rest.takeWhile isWsChar).length
    (titleFrom rest m).map (fun t => (stars.length, t))

/-- Weaker heading test used only to leave the preamble loop of the packaged
converter: one or more stars followed by at least one whitespace character
(no title group).  The scanned physical line ends with a newline that the
line list does not carry, so a line consisting of stars only also matches:
its trailing newline satisfies the whitespace group. -/
def isHeadingBreak (l : Line) : Bool :=
  let stars := l.takeWhile (fun c => c = '*')
  decide (stars ≠ []) &&
    (match (l.drop stars.length).head? with
     | some c => isWsChar c
     | none => true)

/-- Case-insensitive literal match of a pattern given in lower case. -/
def startsWithCI : List Char → Line → Bool
  | [], _ => true
  | _ :: _, [] => false
  | p :: ps, c :: cs => (c.toLower = p) && startsWithCI ps cs

/-- Regex for a document title line in the packaged converter preamble:
optional leading whitespace, a case-insensitive title keyword, optional
whitespace, and a nonempty capture. -/
def titleLineMatch (l : Line) : Option Line :=
  let rest := l.dropWhile isWsChar
  if startsWithCI (("#+title:").toList) rest then
    let after := rest.drop 8
    captureFrom after ((after.takeWhile isWsChar).length)
  else none

/-- Regex for a generic property line, applied to a stripped drawer line:
a colon, a nonempty key without colons, a colon, optional whitespace and a
nonempty value capture. -/
def propLineMatch (s : Line) : Option (Line × Line) :=
  match s with
  | ':' :: rest =>
    let key := rest.takeWhile (fun c => c ≠ ':')
    if key = [] then none
    else
      match rest.drop key.length with
      | ':' :: rest2 =>
        (captureFrom rest2 ((rest2.takeWhile isWsChar).length)).map
          (fun v => (key, v))
      | _ => none
  | _ => none

/-- Lower-case hexadecimal digit or dash (the identifier class of the legacy
converter). -/
def isHexDash (c : Char) : Bool :=
  ('a' ≤ c && c ≤ 'f') || ('0' ≤ c && c ≤ '9') || c = '-'

/-- The legacy identifier regex, applied to a stripped drawer line: a literal
ID key, mandatory whitespace, then a nonempty run of lower-case hexadecimal
characters and dashes (a prefix match, so trailing characters are dropped). -/
def legacyIdMatch (s : Line) : Option Line :=
  if s.take 4 = ((":ID:").toList) then
    let rest := s.drop 4
    let w := rest.takeWhile isWsChar
    if w = [] then none
    else
      let v := (rest.drop w.length).takeWhile isHexDash
      if v = [] then none else some v
  else none

/-- Single step of re.findall for a double-bracketed tag link: the literal
opening including the tag keyword and colon, a nonempty run without closing
brackets, then the double closing bracket.  Returns capture and remainder. -/
def tryTag (tag : List Char) (l : List Char) : Option (List Char × List Char) :=
  if l.take tag.length = tag then
    let rest := l.drop tag.length
    let cap := rest.takeWhile (fun c => c ≠ ']')
    if cap = [] then none
    else
      match rest.drop cap.length with
      | ']' :: ']' :: rest2 => some (cap, rest2)
      | _ => none
  else none

/-- Fuelled left-to-right non-overlapping scan of re.findall; the fuel is
instantiated with the length of the scanned text, which always suffices
because every step consumes at least one character. -/
def findTagsF (tag : List Char) : Nat → List Char → List (List Char)
  | 0, _ => []
  | _, [] => []
  | fuel + 1, c :: cs =>
    match tryTag tag (c :: cs) with
    | some pr => pr.1 :: findTagsF tag fuel pr.2
    | none => findTagsF tag fuel cs

/-- Opening literal of a dedicated attachment link. -/
def attTag : List Char := ("[[attachment:").toList

/-- Opening literal of a generic file link. -/
def fileTag : List Char := ("[[file:").toList

/-- Attachment references contributed by one body line, in the order of both
converters: all dedicated attachment links first, then the file links whose
target lies under an attachments directory or starts with a relative marker. -/
def scanLine (l : Line) : List (List Char) :=
  findTagsF attTag l.length l ++
    (findTagsF fileTag l.length l).filter
      (fun f => f.take 12 = ("attachments/").toList || f.take 2 = ("./").toList)

/-- Python join over readlines output: every collected line contributes its
characters followed by one newline. -/
def joinLines (ls : List Line) : List Char :=
  ls.flatMap (fun l => l ++ ['\n'])

/-- Python dict lookup over an insertion-ordered association list in which a
later binding of the same key overwrites an earlier one. -/
def getProp : List (Line × Line) → Line → Option Line
  | [], _ => none
  | kv :: rest, key =>
    match getProp rest key with
    | some v2 => some v2
    | none => if kv.1 = key then some kv.2 else none

/-- Characters replaced by sanitize_filename: the regex class containing
apostrophe < > : double-quote / backslash | ? * and the control range
0x00 to 0x1F. -/
def reservedChar (c : Char) : Bool :=
  c = Char.ofNat 39 || c = '<' || c = '>' || c = ':' || c = Char.ofNat 34 ||
  c = '/' || c = '\\' || c = '|' || c = '?' || c = '*' || c.toNat ≤ 31

/-- Replacement of a single character performed by sanitize_filename. -/
def sanChar (c : Char) : Char := if reservedChar c then '-' else c

/-- sanitize_filename from convert.py: re.sub of the reserved class by a dash,
character for character. -/
def sanitize_filename (s : List Char) : List Char := s.map sanChar

/-- An open note of the scanners: identifier, raw heading title, level. -/
abbrev OpenNote := Line × Line × Nat

/-- Close an open note, assigning the joined content lines and the collected
attachment references. -/
def closeNote (od : OpenNote) (c : List Line) (a : List (List Char)) : Note :=
  ⟨od.1, od.2.1, joinLines c, od.2.2, a⟩

/-- Final flush of the scanners: an open note is emitted, no note is not. -/
def flushNote : Option OpenNote → List Line → List (List Char) → List Note
  | none, _, _ => []
  | some od, c, a => [closeNote od c a]

/-- A heading opens a note exactly when its property drawer yields an
identifier. -/
def noteFromDrawer (props : List (Line × Line)) (ttl : Line) (lvl : Nat) :
    Option OpenNote :=
  (getProp props pID).map (fun i => (i, ttl, lvl))

/-- The default title of a document-root note whose preamble has no title. -/
def untitled : Line := ("Untitled").toList

/-- Root title selection of the packaged converter: a missing or empty
preamble title falls back to the default. -/
def rootTitle : Option Line → Line
  | some t => if t = [] then untitled else t
  | none => untitled

/-- Result of the preamble loop of the packaged converter. -/
structure PreResult where
  titleQ : Option Line
  props : List (Line × Line)
  content : List Line
  rest : List Line
deriving Repr, DecidableEq

namespace Pkg

/-- Preamble loop of extract_notes_from_file in orgroam2obsidian/convert.py:
per line, in order, a title match, the drawer delimiters, drawer property
collection, the heading break, and otherwise content collection. -/
def phaseA : Option Line → Bool → List (Line × Line) → List Line → List Line →
    PreResult
  | t, _, props, content, [] => ⟨t, props, content, []⟩
  | t, inP, props, content, l :: ls =>
    match titleLineMatch l with
    | some cap => phaseA (some (strip cap)) inP props content ls
    | none =>
      if strip l = pPROPERTIES then phaseA t true props content ls
      else if strip l = pEND then phaseA t false props content ls
      else if inP then
        match propLineMatch (strip l) with
        | some kv => phaseA t inP (props ++ [kv]) content ls
        | none => phaseA t inP props content ls
      else if isHeadingBreak l then ⟨t, props, content, l :: ls⟩
      else phaseA t inP props (content ++ [l]) ls

/-- Scanner mode of the heading loop of the packaged converter: collecting a
body (with an optional open note), or consuming the property drawer that
follows a just-seen heading. -/
inductive BState where
  | body (o : Option OpenNote)
  | drawer (inP : Bool) (props : List (Line × Line)) (ttl : Line) (lvl : Nat)
deriving Repr, DecidableEq

/-- Heading loop of extract_notes_from_file in orgroam2obsidian/convert.py,
fused with its inner property-drawer loop into one single pass.  On a heading
an open note is flushed (resetting the accumulators only in that case), the
drawer is consumed, and a note opens exactly when the drawer yields an
identifier; a line ending the drawer is reprocessed as the outer loop does. -/
def phaseB : BState → List Line → List (List Char) → List Line → List Note
  | .body o, c, a, [] => flushNote o c a
  | .drawer _ props ttl lvl, c, a, [] =>
    flushNote (noteFromDrawer props ttl lvl) c a
  | .body o, c, a, l :: ls =>
    match headingMatch l with
    | some pr =>
      match o with
      | some od => closeNote od c a :: phaseB (.drawer false [] pr.2 pr.1) [] [] ls
      | none => phaseB (.drawer false [] pr.2 pr.1) c a ls
    | none =>
      match o with
      | some od => phaseB (.body (some od)) (c ++ [l]) (a ++ scanLine l) ls
      | none => phaseB (.body none) c a ls
  | .drawer inP props ttl lvl, c, a, l :: ls =>
    if strip l = pPROPERTIES then phaseB (.drawer true props ttl lvl) c a ls
    else if strip l = pEND then phaseB (.drawer false props ttl lvl) c a ls
    else if inP then
      match propLineMatch (strip l) with
      | some kv => phaseB (.drawer true (props ++ [kv]) ttl lvl) c a ls
      | none => phaseB (.drawer true props ttl lvl) c a ls
    else
      match headingMatch l with
      | some pr =>
        match noteFromDrawer props ttl lvl with
        | some od => closeNote od c a :: phaseB (.drawer false [] pr.2 pr.1) [] [] ls
        | none => phaseB (.drawer false [] pr.2 pr.1) c a ls
      | none =>
        match noteFromDrawer props ttl lvl with
        | some od => phaseB (.body (some od)) (c ++ [l]) (a ++ scanLine l) ls
        | none => phaseB (.body none) c a ls

/-- extract_notes_from_file of orgroam2obsidian/convert.py on the lines of a
document: run the preamble loop, emit a root note when the preamble drawer
yields an identifier (resetting the accumulated content only in that case),
then run the heading loop on the remaining lines. -/
def extract_notes_from_file (lines : List Line) : List Note :=
  let r := phaseA none false [] [] lines
  match getProp r.props pID with
  | some i =>
    ⟨i, rootTitle r.titleQ, joinLines r.content, 0, r.content.flatMap scanLine⟩
      :: phaseB (.body none) [] [] r.rest
  | none => phaseB (.body none) r.content [] r.rest

end Pkg

namespace Legacy

/-- Non-consuming lookahead of the legacy converter after a heading: walk the
following drawer lines, keeping the last identifier match, and stop at the
first line that is neither a delimiter nor inside the drawer. -/
def idScan : Bool → Option Line → List Line → Option Line
  | _, acc, [] => acc
  | inP, acc, l :: ls =>
    if strip l = pPROPERTIES then idScan true acc ls
    else if strip l = pEND then idScan false acc ls
    else if inP then
      idScan true
        (match legacyIdMatch (strip l) with
         | some v => some v
         | none => acc) ls
    else acc

/-- Main loop of extract_notes_from_file in the legacy convert.py: a single
pass over all lines; a heading flushes any open note and opens a new one when
the lookahead finds an identifier; every non-heading line while collecting is
content (including the drawer lines themselves, which the lookahead does not
consume). -/
def loop : Option OpenNote → List Line → List (List Char) → List Line → List Note
  | o, c, a, [] => flushNote o c a
  | o, c, a, l :: ls =>
    match headingMatch l with
    | some pr =>
      match o with
      | some od =>
        closeNote od c a ::
          loop ((idScan false none ls).map (fun i => (i, pr.2, pr.1))) [] [] ls
      | none => loop ((idScan false none ls).map (fun i => (i, pr.2, pr.1))) c a ls
    | none =>
      match o with
      | some od => loop (some od) (c ++ [l]) (a ++ scanLine l) ls
      | none => loop o c a ls

/-- extract_notes_from_file of the legacy convert.py. -/
def extract_notes_from_file (lines : List Line) : List Note :=
  loop none [] [] lines

end Legacy

/-- os.path.basename for POSIX paths: the part after the last slash. -/
def basename (p : List Char) : List Char :=
  (p.reverse.takeWhile (fun c => c ≠ '/')).reverse

/-- One step of os.path.join: an absolute second component resets the result;
otherwise a separator is inserted unless the first component is empty or
already ends with one. -/
def pjoin2 (a b : List Char) : List Char :=
  if b.head? = some '/' then b
  else if a = [] then a ++ b
  else if a.getLast? = some '/' then a ++ b
  else a ++ '/' :: b

/-- The note graph (second_brain): a Python dict from identifier to note,
modelled as an insertion-ordered association list. -/
abbrev Brain := List (List Char × Note)

/-- Python dict lookup. -/
def dictGet : Brain → List Char → Option Note
  | [], _ => none
  | kv :: rest, k => if kv.1 = k then some kv.2 else dictGet rest k

/-- replace_links of orgroam2obsidian/convert.py, applied to one regex match
with label group text and target group target; the attachments folder name is
the module-level variable threaded in as a parameter. -/
def replace_links (af : List Char) (brain : Brain) (text target : List Char)
    (cur : Note) : List Char :=
  if target.take 3 = ("id:").toList then
    let tid := target.drop 3
    match dictGet brain tid with
    | some tn => ("[[").toList ++ sanitize_filename tn.title ++ ("]]").toList
    | none =>
      ("[Note not found: ").toList ++ text ++ ("](").toList ++ target ++ (")").toList
  else if target.take 11 = ("attachment:").toList then
    let fname := basename (target.drop 11)
    ("![[").toList ++ af ++ '/' :: cur.id ++ '/' :: fname ++ ("]]").toList
  else
    ("[").toList ++ text ++ ("](").toList ++ target ++ (")").toList

/-- Source path computed by copy_attachments in orgroam2obsidian/convert.py
for one raw attachment reference: os.path.join of the attachments folder, the
two-character shard of the identifier, the identifier, and the raw reference. -/
def source_attachment_path (af id att : List Char) : List Char :=
  pjoin2 (pjoin2 (pjoin2 af (id.take 2)) id) att

/-- Destination directory of copy_attachments: output folder, basename of the
attachments folder, then the sanitized title or the identifier depending on
the use_title flag. -/
def copyDestDir (outputFolder afGlobal : List Char) (note : Note)
    (useTitle : Bool) : List Char :=
  pjoin2 (pjoin2 outputFolder (basename afGlobal))
    (if useTitle then sanitize_filename note.title else note.id)

/-- Single candidate match of the link-rewriting regex at the current
position: an opening bracket, a nonempty label without closing brackets, the
bracket-parenthesis middle, a nonempty target without closing parentheses,
and the closing parenthesis.  Returns label, target and the remainder. -/
def linkMatchAt : List Char → Option (List Char × List Char × List Char)
  | [] => none
  | c :: cs =>
    if c = '[' then
      let lbl := cs.takeWhile (fun x => x ≠ ']')
      if lbl = [] then none
      else if (cs.drop lbl.length).take 2 = ("](").toList then
        let ds := cs.drop (lbl.length + 2)
        let tgt := ds.takeWhile (fun x => x ≠ ')')
        if tgt = [] then none
        else if (ds.drop tgt.length).take 1 = (")").toList then
          some (lbl, tgt, ds.drop (tgt.length + 1))
        else none
      else none
    else none

/-- Fuelled re.sub over the link pattern: at each position, replace a match
and continue after it, or move one character forward.  The fuel is
instantiated with the text length, which always suffices. -/
def subLinksF (f : List Char → List Char → List Char) :
    Nat → List Char → List Char
  | 0, _ => []
  | _, [] => []
  | fuel + 1, c :: cs =>
    match linkMatchAt (c :: cs) with
    | some m => f m.1 m.2.1 ++ subLinksF f fuel m.2.2
    | none => c :: subLinksF f fuel cs

/-- re.sub of the link pattern over a rendered text, as step 3 of main does. -/
def subLinks (f : List Char → List Char → List Char) (text : List Char) :
    List Char :=
  subLinksF f text.length text

/-- The ordered label-target pairs matched by the link pattern (fuelled). -/
def linkMatchesF : Nat → List Char → List (List Char × List Char)
  | 0, _ => []
  | _, [] => []
  | fuel + 1, c :: cs =>
    match linkMatchAt (c :: cs) with
    | some m => (m.1, m.2.1) :: linkMatchesF fuel m.2.2
    | none => linkMatchesF fuel cs

/-- The ordered label-target pairs matched by the link pattern in a text. -/
def linkMatches (text : List Char) : List (List Char × List Char) :=
  linkMatchesF text.length text

/-- The literal pieces of a text between the link matches (fuelled); one more
piece than there are matches. -/
def linkSplitF : Nat → List Char → List (List Char)
  | 0, _ => [[]]
  | _, [] => [[]]
  | fuel + 1, c :: cs =>
    match linkMatchAt (c :: cs) with
    | some m => [] :: linkSplitF fuel m.2.2
    | none =>
      match linkSplitF fuel cs with
      | p :: ps => (c :: p) :: ps
      | [] => [[c]]

/-- The literal pieces of a text between the link matches. -/
def linkSplit (text : List Char) : List (List Char) :=
  linkSplitF text.length text

/-- Interleave literal pieces with replacement strings. -/
def interleave : List (List Char) → List (List Char) → List Char
  | [], rs => rs.flatMap id
  | p :: ps, [] => p ++ interleave ps []
  | p :: ps, r :: rs => p ++ r ++ interleave ps rs

/-- Rebuild the original source text of one link match. -/
def linkSource (pr : List Char × List Char) : List Char :=
  '[' :: pr.1 ++ ']' :: '(' :: pr.2 ++ [')']

/-- A line that no heading regex match starts. -/
def notHeading (l : Line) : Bool := (headingMatch l).isNone

/-- Attachment references of a list of body lines, line by line. -/
def scanBody (ls : List Line) : List (List Char) := ls.flatMap scanLine

/-- The inner property-drawer loop after a heading, as a function from the
following lines to the collected properties and the unconsumed remainder. -/
def parseDrawer : Bool → List (Line × Line) → List Line →
    List (Line × Line) × List Line
  | _, props, [] => (props, [])
  | inP, props, l :: ls =>
    if strip l = pPROPERTIES then parseDrawer true props ls
    else if strip l = pEND then parseDrawer false props ls
    else if inP then
      match propLineMatch (strip l) with
      | some kv => parseDrawer true (props ++ [kv]) ls
      | none => parseDrawer true props ls
    else (props, l :: ls)

/-- The drawer loop only consumes lines (termination measure of the segment
decomposition below). -/
theorem parseDrawer_rest_len (inP : Bool) (props : List (Line × Line))
    (ls : List Line) : (parseDrawer inP props ls).2.length ≤ ls.length := by
  induction ls generalizing inP props with
  | nil => simp [parseDrawer]
  | cons l ls ih =>
    by_cases h1 : strip l = pPROPERTIES
    · simp only [parseDrawer, h1, if_true]
      exact le_trans (ih _ _) (Nat.le_succ _)
    · by_cases h2 : strip l = pEND
      · simp only [parseDrawer, h1, h2, if_false, if_true]
        exact le_trans (ih _ _) (Nat.le_succ _)
      · by_cases h3 : inP = true
        · cases hm : propLineMatch (strip l) with
          | some kv =>
            simp only [parseDrawer, h1, h2, h3, hm, if_false, if_true]
            exact le_trans (ih _ _) (Nat.le_succ _)
          | none =>
            simp only [parseDrawer, h1, h2, h3, hm, if_false, if_true]
            exact le_trans (ih _ _) (Nat.le_succ _)
        · have h3f : inP = false := by revert h3; cases inP <;> simp
          simp [parseDrawer, h1, h2, h3f]

/-- dropWhile only removes elements. -/
theorem dropWhile_len_le (p : Line → Bool) (l : List Line) :
    (l.dropWhile p).length ≤ l.length := by
  induction l with
  | nil => simp
  | cons a l ih =>
    by_cases h : p a
    · simp only [List.dropWhile, h]
      exact le_trans ih (Nat.le_succ _)
    · have hf : p a = false := by revert h; cases p a <;> simp
      simp [List.dropWhile, hf]

/-- One segment of a document after the preamble: a heading with its level
and raw title, the properties of the drawer that directly follows it, and the
body lines up to the next heading. -/
structure Seg where
  level : Nat
  title : Line
  props : List (Line × Line)
  body : List Line
deriving Repr, DecidableEq

/-- Segment decomposition of the lines after the preamble: at a heading,
consume the drawer, take the following non-heading lines as the body, and
continue at the next heading. -/
def segsOf : List Line → List Seg
  | [] => []
  | l :: ls =>
    match headingMatch l with
    | some pr =>
      ⟨pr.1, pr.2, (parseDrawer false [] ls).1,
        (parseDrawer false [] ls).2.takeWhile notHeading⟩ ::
        segsOf ((parseDrawer false [] ls).2.dropWhile notHeading)
    | none => segsOf ls
termination_by lines => lines.length
decreasing_by
  · have h1 := parseDrawer_rest_len false [] ls
    have h2 := dropWhile_len_le notHeading (parseDrawer false [] ls).2
    simp only [List.length_cons]
    omega
  · simp only [List.length_cons]
    omega

/-- Notes contributed by the segments: exactly one note per segment whose
drawer yields an identifier, with that identifier, the raw heading title and
the heading level; the body is the content and is scanned for attachments.
The pending content (and pending attachments) carried in from before the
first flushed note is prepended to the first such note only. -/
def notesFromSegs : List Line → List (List Char) → List Seg → List Note
  | _, _, [] => []
  | pend, patts, s :: rest =>
    match getProp s.props pID with
    | some i =>
      ⟨i, s.title, joinLines (pend ++ s.body), s.level,
        patts ++ scanBody s.body⟩ :: notesFromSegs [] [] rest
    | none => notesFromSegs pend patts rest

/-- Segment-level description of the packaged extractor: run the preamble
loop, emit the root note when the preamble yields an identifier, and emit one
note per identified segment; when the root yields no identifier, the preamble
content is carried as pending content into the first identified segment. -/
def extractSpec (lines : List Line) : List Note :=
  let r := Pkg.phaseA none false [] [] lines
  match getProp r.props pID with
  | some i =>
    ⟨i, rootTitle r.titleQ, joinLines r.content, 0, scanBody r.content⟩
      :: notesFromSegs [] [] (segsOf r.rest)
  | none => notesFromSegs r.content [] (segsOf r.rest)

/-- Segment-level value of the heading loop started in body mode. -/
def bodySpec : Option OpenNote → List Line → List (List Char) → List Line →
    List Note
  | some od, c, a, lines =>
    closeNote od (c ++ lines.takeWhile notHeading)
        (a ++ scanBody (lines.takeWhile notHeading)) ::
      notesFromSegs [] [] (segsOf (lines.dropWhile notHeading))
  | none, c, a, lines => notesFromSegs c a (segsOf lines)

/-- Segment-level value of the heading loop in any mode: the drawer mode
first finishes consuming drawer lines, then behaves as body mode for the note
the drawer determines. -/
def stateSpec : Pkg.BState → List Line → List (List Char) → List Line →
    List Note
  | .body o, c, a, lines => bodySpec o c a lines
  | .drawer inP props ttl lvl, c, a, lines =>
    bodySpec (noteFromDrawer (parseDrawer inP props lines).1 ttl lvl) c a
      (parseDrawer inP props lines).2

/-- The note of the worked example in the spec and the tests. -/
def demoNoteOne : Note :=
  ⟨("87f4a3-a24c-4a96-938f-f00ef1f67ef3").toList, ("Note One").toList, [], 1, []⟩

/-- The link-target note of the worked example in the spec and the tests. -/
def demoNoteTwo : Note :=
  ⟨("5970E7-4DAD-4E87-9256-B1E63E4C2885").toList, ("Note Two").toList, [], 1, []⟩

/-- A two-note graph for the worked link-resolution example. -/
def demoBrain : Brain :=
  [(demoNoteOne.id, demoNoteOne), (demoNoteTwo.id, demoNoteTwo)]

/-- One drawer line as written in a well-formed document. -/
def renderEntry (kv : Line × Line) : Line := ':' :: kv.1 ++ ':' :: ' ' :: kv.2

/-- A structured document segment used to compare the two extractors: a
heading of a given level and title, an optional property drawer, and body
lines. -/
structure WfSeg where
  level : Nat
  title : Line
  drawer : Option (List (Line × Line))
  body : List Line
deriving Repr

/-- The drawer lines of a segment as written. -/
def renderDrawer : Option (List (Line × Line)) → List Line
  | none => []
  | some es => pPROPERTIES :: es.map renderEntry ++ [pEND]

/-- The lines of a segment as written. -/
def renderSeg (s : WfSeg) : List Line :=
  (List.replicate s.level '*' ++ ' ' :: s.title) :: renderDrawer s.drawer ++ s.body

/-- The lines of a structured document as written (no preamble). -/
def renderDoc (d : List WfSeg) : List Line := d.flatMap renderSeg

/-- The entries of an optional drawer. -/
def entriesOf : Option (List (Line × Line)) → List (Line × Line)
  | none => []
  | some es => es

/-- Well-formed drawer key: nonempty, without colons, newlines or opening
brackets. -/
def wfKey (k : Line) : Bool :=
  !(k.isEmpty) && k.all (fun x => !(x = ':') && !(x = '\n') && !(x = '['))

/-- Well-formed drawer value: nonempty, no surrounding whitespace, without
newlines or opening brackets. -/
def wfVal (v : Line) : Bool :=
  !(v.isEmpty) &&
  (match v.head? with
   | some a => !(isWsChar a)
   | none => false) &&
  (match v.getLast? with
   | some a => !(isWsChar a)
   | none => false) &&
  v.all (fun x => !(x = '\n') && !(x = '['))

/-- Well-formed drawer entry. -/
def wfEntry (kv : Line × Line) : Bool :=
  wfKey kv.1 && wfVal kv.2

/-- Identifier entries of a segment carry only lower-case hexadecimal
characters and dashes, the class both converters read identically. -/
def idLower (s : WfSeg) : Bool :=
  (entriesOf s.drawer).all
    (fun kv => !(decide (kv.1 = pID)) || kv.2.all isHexDash)

/-- Well-formed title: nonempty, no surrounding whitespace, no newlines. -/
def wfTitle (t : Line) : Bool :=
  (match t.head? with
   | some a => !(isWsChar a)
   | none => false) &&
  (match t.getLast? with
   | some a => !(isWsChar a)
   | none => true) &&
  t.all (fun x => !(x = '\n'))

/-- Well-formed body line: not a heading and not a drawer delimiter. -/
def wfBodyLine (b : Line) : Bool :=
  (headingMatch b).isNone && decide (strip b ≠ pPROPERTIES) &&
    decide (strip b ≠ pEND)

/-- Well-formed segment. -/
def wfSeg (s : WfSeg) : Bool :=
  decide (1 ≤ s.level) && wfTitle s.title &&
  (match s.drawer with
   | none => true
   | some es => es.all wfEntry) &&
  s.body.all wfBodyLine

/-- Well-formed document for the comparison of the two extractors. -/
def wfDoc (d : List WfSeg) : Bool := d.all wfSeg && d.all idLower

/-- The notes of the packaged extractor on a well-formed document, one per
identified segment, content from the body only. -/
def pkgNotesOf : List WfSeg → List Note
  | [] => []
  | s :: rest =>
    match getProp (entriesOf s.drawer) pID with
    | some i =>
      ⟨i, s.title, joinLines s.body, s.level, scanBody s.body⟩ ::
        pkgNotesOf rest
    | none => pkgNotesOf rest

/-- The notes of the legacy extractor on a well-formed document: the same
identifiers, titles, levels and attachments, but the drawer lines are part
of the content. -/
def legacyNotesOf : List WfSeg → List Note
  | [] => []
  | s :: rest =>
    match getProp (entriesOf s.drawer) pID with
    | some i =>
      ⟨i, s.title, joinLines (renderDrawer s.drawer ++ s.body), s.level,
        scanBody s.body⟩ :: legacyNotesOf rest
    | none => legacyNotesOf rest

/-- The identifier-relevant projection of a note: everything but content. -/
def projNote (n : Note) : Line × Line × Nat × List (List Char) :=
  (n.id, n.title, n.level, n.attachments)

/-- A single-heading document whose drawer carries one identifier entry. -/
def idDoc (t v : Line) : List Line :=
  renderDoc [⟨1, t, some [(pID, v)], []⟩]

/-- The hexadecimal-with-dashes characters, upper or lower case. -/
def hexChars : List Char := ("0123456789abcdefABCDEF-").toList

/-- First line of a tail at which the inner drawer loop stops: either no
line, or a line that is not a drawer delimiter. -/
def tailOk : List Line → Bool
  | [] => true
  | l :: _ => decide (strip l ≠ pPROPERTIES) && decide (strip l ≠ pEND)

theorem segsOf_cons_heading (l : Line) (ls : List Line) (pr : Nat × Line)
    (hh : headingMatch l = some pr) :
    segsOf (l :: ls) =
      ⟨pr.1, pr.2, (parseDrawer false [] ls).1,
          (parseDrawer false [] ls).2.takeWhile notHeading⟩ ::
        segsOf ((parseDrawer false [] ls).2.dropWhile notHeading) := by
  rw [segsOf]
  simp [hh]

theorem segsOf_cons_nh (l : Line) (ls : List Line)
    (hh : headingMatch l = none) : segsOf (l :: ls) = segsOf ls := by
  rw [segsOf]
  simp [hh]

theorem segsOf_dropWhile (ls : List Line) :
    segsOf (ls.dropWhile notHeading) = segsOf ls := by
  induction ls with
  | nil => simp
  | cons l ls ih =>
    by_cases h : notHeading l = true
    · have hh : headingMatch l = none := by
        revert h
        simp [notHeading, Option.isNone_iff_eq_none]
      rw [List.dropWhile_cons_of_pos h, ih, segsOf_cons_nh l ls hh]
    · have hf : notHeading l = false := by revert h; cases notHeading l <;> simp
      rw [List.dropWhile_cons_of_neg (by simp [hf])]

theorem scanBody_nil : scanBody [] = [] := rfl

theorem scanBody_cons (l : Line) (ls : List Line) :
    scanBody (l :: ls) = scanLine l ++ scanBody ls := by
  simp [scanBody]

theorem spec_step_heading (l : Line) (ls : List Line) (pr : Nat × Line)
    (hh : headingMatch l = some pr) (od : OpenNote) (c : List Line)
    (a : List (List Char)) :
    closeNote od c a :: stateSpec (.drawer false [] pr.2 pr.1) [] [] ls =
      bodySpec (some od) c a (l :: ls) := by
  have hnh : notHeading l = false := by simp [notHeading, hh]
  rw [stateSpec, bodySpec]
  rw [List.takeWhile_cons_of_neg (by simp [hnh]),
    List.dropWhile_cons_of_neg (by simp [hnh])]
  rw [segsOf_cons_heading l ls pr hh]
  cases hg : getProp (parseDrawer false [] ls).1 pID with
  | some i =>
    simp [bodySpec, noteFromDrawer, hg, notesFromSegs, closeNote, scanBody]
  | none =>
    simp [bodySpec, noteFromDrawer, hg, notesFromSegs, closeNote,
      segsOf_dropWhile, scanBody]

theorem spec_step_heading_none (l : Line) (ls : List Line) (pr : Nat × Line)
    (hh : headingMatch l = some pr) (c : List Line) (a : List (List Char)) :
    stateSpec (.drawer false [] pr.2 pr.1) c a ls =
      bodySpec none c a (l :: ls) := by
  rw [stateSpec, bodySpec]
  rw [segsOf_cons_heading l ls pr hh]
  cases hg : getProp (parseDrawer false [] ls).1 pID with
  | some i =>
    simp [bodySpec, noteFromDrawer, hg, notesFromSegs, closeNote, scanBody]
  | none =>
    simp [bodySpec, noteFromDrawer, hg, notesFromSegs, segsOf_dropWhile,
      scanBody]

theorem spec_step_content_some (l : Line) (ls : List Line)
    (hh : headingMatch l = none) (od : OpenNote) (c : List Line)
    (a : List (List Char)) :
    stateSpec (.body (some od)) (c ++ [l]) (a ++ scanLine l) ls =
      bodySpec (some od) c a (l :: ls) := by
  have hnh : notHeading l = true := by simp [notHeading, hh]
  rw [stateSpec, bodySpec, bodySpec]
  rw [List.takeWhile_cons_of_pos hnh, List.dropWhile_cons_of_pos hnh]
  rw [scanBody_cons]
  simp [List.append_assoc]

theorem spec_step_content_none (l : Line) (ls : List Line)
    (hh : headingMatch l = none) (c : List Line) (a : List (List Char)) :
    stateSpec (.body none) c a ls = bodySpec none c a (l :: ls) := by
  rw [stateSpec, bodySpec, bodySpec, segsOf_cons_nh l ls hh]

/-- The heading loop of the packaged converter computes, in every mode and
with every accumulator state, exactly the segment-level description. -/
theorem phaseB_spec (lines : List Line) :
    ∀ (st : Pkg.BState) (c : List Line) (a : List (List Char)),
      Pkg.phaseB st c a lines = stateSpec st c a lines := by
  induction lines with
  | nil =>
    intro st c a
    cases st with
    | body o =>
      cases o with
      | none => simp [Pkg.phaseB, stateSpec, bodySpec, flushNote, segsOf,
          notesFromSegs]
      | some od =>
        simp [Pkg.phaseB, stateSpec, bodySpec, flushNote, segsOf,
          notesFromSegs, scanBody]
    | drawer inP props ttl lvl =>
      cases hn : noteFromDrawer props ttl lvl with
      | none =>
        simp [Pkg.phaseB, stateSpec, bodySpec, flushNote, parseDrawer, hn,
          segsOf, notesFromSegs]
      | some od =>
        simp [Pkg.phaseB, stateSpec, bodySpec, flushNote, parseDrawer, hn,
          segsOf, notesFromSegs, scanBody]
  | cons l ls ih =>
    intro st c a
    cases st with
    | body o =>
      cases hh : headingMatch l with
      | some pr =>
        cases o with
        | some od =>
          simp only [Pkg.phaseB, hh]
          rw [ih, spec_step_heading l ls pr hh od c a, stateSpec]
        | none =>
          simp only [Pkg.phaseB, hh]
          rw [ih, spec_step_heading_none l ls pr hh c a, stateSpec]
      | none =>
        cases o with
        | some od =>
          simp only [Pkg.phaseB, hh]
          rw [ih, spec_step_content_some l ls hh od c a, stateSpec]
        | none =>
          simp only [Pkg.phaseB, hh]
          rw [ih, spec_step_content_none l ls hh c a, stateSpec]
    | drawer inP props ttl lvl =>
      simp only [Pkg.phaseB]
      by_cases h1 : strip l = pPROPERTIES
      · rw [if_pos h1, ih]
        simp only [stateSpec]
        rw [show parseDrawer inP props (l :: ls) = parseDrawer true props ls by
          simp [parseDrawer, h1]]
      · rw [if_neg h1]
        by_cases h2 : strip l = pEND
        · rw [if_pos h2, ih]
          simp only [stateSpec]
          rw [show parseDrawer inP props (l :: ls) = parseDrawer false props ls by
            simp only [parseDrawer]
            rw [if_neg h1, if_pos h2]]
        · rw [if_neg h2]
          cases inP with
          | true =>
            rw [if_pos rfl]
            cases hm : propLineMatch (strip l) with
            | some kv =>
              simp only [hm]
              rw [ih]
              simp only [stateSpec]
              rw [show parseDrawer true props (l :: ls) =
                  parseDrawer true (props ++ [kv]) ls by
                simp [parseDrawer, h1, h2, hm]]
            | none =>
              simp only [hm]
              rw [ih]
              simp only [stateSpec]
              rw [show parseDrawer true props (l :: ls) =
                  parseDrawer true props ls by
                simp [parseDrawer, h1, h2, hm]]
          | false =>
            rw [if_neg (by decide : ¬ (false = true))]
            have hpd : parseDrawer false props (l :: ls) = (props, l :: ls) := by
              simp [parseDrawer, h1, h2]
            simp only [stateSpec, hpd]
            cases hh : headingMatch l with
            | some pr =>
              simp only [hh]
              cases hn : noteFromDrawer props ttl lvl with
              | some od =>
                simp only [hn]
                rw [ih, spec_step_heading l ls pr hh od c a]
              | none =>
                simp only [hn]
                rw [ih, spec_step_heading_none l ls pr hh c a]
            | none =>
              simp only [hh]
              cases hn : noteFromDrawer props ttl lvl with
              | some od =>
                simp only [hn]
                rw [ih, spec_step_content_some l ls hh od c a]
              | none =>
                simp only [hn]
                rw [ih, spec_step_content_none l ls hh c a]

/-- The packaged extractor equals its segment-level description on every
document. -/
theorem extract_eq_extractSpec (lines : List Line) :
    Pkg.extract_notes_from_file lines = extractSpec lines := by
  rw [Pkg.extract_notes_from_file, extractSpec]
  cases hg : getProp (Pkg.phaseA none false [] [] lines).props pID with
  | some i => simp [hg, phaseB_spec, stateSpec, bodySpec, scanBody]
  | none => simp [hg, phaseB_spec, stateSpec, bodySpec, scanBody]

theorem sanChar_not_reserved (c : Char) : reservedChar (sanChar c) = false := by
  unfold sanChar
  by_cases h : reservedChar c = true
  · rw [if_pos h]; decide
  · rw [if_neg h]; simpa using h

theorem sanChar_idem (c : Char) : sanChar (sanChar c) = sanChar c := by
  unfold sanChar
  by_cases h : reservedChar c = true
  · rw [if_pos h]; decide
  · rw [if_neg h, if_neg h]

/-- Claim C2: the filename sanitizer replaces exactly the reserved characters
one for one (pointwise description), preserves length, leaves no reserved
character in its output, and is idempotent. -/
theorem claim_C2 (s : List Char) :
    (sanitize_filename s).length = s.length ∧
    (∀ c ∈ sanitize_filename s, reservedChar c = false) ∧
    sanitize_filename (sanitize_filename s) = sanitize_filename s ∧
    (∀ i : Nat, (sanitize_filename s).get? i = (s.get? i).map sanChar) := by
  refine ⟨by simp [sanitize_filename], ?_, ?_, ?_⟩
  · intro c hc
    simp only [sanitize_filename, List.mem_map] at hc
    obtain ⟨d, _, rfl⟩ := hc
    exact sanChar_not_reserved d
  · simp only [sanitize_filename, List.map_map]
    exact List.map_congr_left (fun c _ => sanChar_idem c)
  · intro i
    simp [sanitize_filename]

/-- Claim C3: an id link whose identifier is in the graph resolves to the
double-bracketed sanitized title of the target note. -/
theorem claim_C3 (af : List Char) (brain : Brain) (text tid : List Char)
    (cur tn : Note) (h : dictGet brain tid = some tn) :
    replace_links af brain text (("id:").toList ++ tid) cur =
      ("[[").toList ++ sanitize_filename tn.title ++ ("]]").toList := by
  have h3 : ((("id:").toList ++ tid).take 3) = ("id:").toList := rfl
  have hd : ((("id:").toList ++ tid).drop 3) = tid := rfl
  rw [replace_links, h3, if_pos rfl]
  simp [hd, h]

/-- Claim C3 witness: the worked example resolves to the Note Two reference. -/
theorem claim_C3_witness :
    dictGet demoBrain (("5970E7-4DAD-4E87-9256-B1E63E4C2885").toList) =
      some demoNoteTwo ∧
    replace_links (("attachments").toList) demoBrain
        (("Link to Note Two").toList)
        (("id:").toList ++ ("5970E7-4DAD-4E87-9256-B1E63E4C2885").toList)
        demoNoteOne =
      ("[[Note Two]]").toList := by
  refine ⟨rfl, ?_⟩
  rw [claim_C3 (("attachments").toList) demoBrain (("Link to Note Two").toList)
    (("5970E7-4DAD-4E87-9256-B1E63E4C2885").toList) demoNoteOne demoNoteTwo rfl]
  rfl

/-- Claim C4: an id link whose identifier is absent from the graph resolves,
without raising (the resolver is a total function), to the literal fallback,
which contains the original label and the original target verbatim. -/
theorem claim_C4 (af : List Char) (brain : Brain) (text tid : List Char)
    (cur : Note) (h : dictGet brain tid = none) :
    replace_links af brain text (("id:").toList ++ tid) cur =
      ("[Note not found: ").toList ++ text ++ ("](").toList ++
        (("id:").toList ++ tid) ++ (")").toList ∧
    text <:+: replace_links af brain text (("id:").toList ++ tid) cur ∧
    (("id:").toList ++ tid) <:+:
      replace_links af brain text (("id:").toList ++ tid) cur := by
  have h3 : ((("id:").toList ++ tid).take 3) = ("id:").toList := rfl
  have hd : ((("id:").toList ++ tid).drop 3) = tid := rfl
  have he : replace_links af brain text (("id:").toList ++ tid) cur =
      ("[Note not found: ").toList ++ text ++ ("](").toList ++
        (("id:").toList ++ tid) ++ (")").toList := by
    rw [replace_links, h3, if_pos rfl]
    simp [hd, h]
  refine ⟨he, ?_, ?_⟩
  · rw [he]
    exact ⟨("[Note not found: ").toList,
      ("](").toList ++ (("id:").toList ++ tid) ++ (")").toList, by
        simp [List.append_assoc]⟩
  · rw [he]
    exact ⟨("[Note not found: ").toList ++ text ++ ("](").toList,
      (")").toList, by simp [List.append_assoc]⟩

/-- Claim C4 witness: resolving against the two-note demo graph with an
unknown identifier yields the literal fallback embedding label and target. -/
theorem claim_C4_witness :
    dictGet demoBrain (("missing").toList) = none ∧
    replace_links (("attachments").toList) demoBrain (("lbl").toList)
        (("id:").toList ++ ("missing").toList) demoNoteOne =
      ("[Note not found: lbl](id:missing)").toList := by
  refine ⟨rfl, ?_⟩
  rw [(claim_C4 (("attachments").toList) demoBrain (("lbl").toList)
    (("missing").toList) demoNoteOne rfl).1]
  rfl

theorem mem_of_headQ {l : List Char} {a : Char} (h : l.head? = some a) :
    a ∈ l := by
  cases l with
  | nil => simp at h
  | cons c cs =>
    simp only [List.head?] at h
    cases h
    exact List.mem_cons_self _ _

theorem mem_of_getLastQ : ∀ {l : List Char} {a : Char},
    l.getLast? = some a → a ∈ l
  | [x], a, h => by
    simp only [List.getLast?] at h
    cases h
    exact List.mem_cons_self _ _
  | x :: y :: ys, a, h => by
    rw [List.getLast?_cons_cons] at h
    exact List.mem_cons_of_mem x (mem_of_getLastQ h)

theorem getLast?_append_consNe (a : List Char) (x : Char) (xs : List Char)
    (h : xs ≠ []) : (a ++ x :: xs).getLast? = xs.getLast? := by
  rw [List.getLast?_append_of_ne_nil _ (by simp)]
  cases xs with
  | nil => exact absurd rfl h
  | cons y ys => rw [List.getLast?_cons_cons]

theorem pjoin2_eq (a b : List Char) (ha : a ≠ []) (hae : a.getLast? ≠ some '/')
    (hb : b.head? ≠ some '/') : pjoin2 a b = a ++ '/' :: b := by
  unfold pjoin2
  rw [if_neg hb, if_neg ha, if_neg hae]

/-- Claim C5 (amended): the source path looked up by copy_attachments is the
attachments root, then the two-character shard of the identifier, then the
identifier directory, then the raw attachment reference exactly as written;
directory components of the reference are not stripped and appear in the
looked-up path. -/
theorem claim_C5_amended (af id att : List Char) (h1 : af ≠ [])
    (h2 : af.getLast? ≠ some '/') (h3 : id ≠ []) (h4 : '/' ∉ id)
    (h5 : att.head? ≠ some '/') :
    source_attachment_path af id att =
      af ++ '/' :: id.take 2 ++ '/' :: id ++ '/' :: att := by
  have ht2ne : id.take 2 ≠ [] := by
    cases id with
    | nil => exact absurd rfl h3
    | cons c cs => simp
  have hth : (id.take 2).head? ≠ some '/' := by
    cases id with
    | nil => exact absurd rfl h3
    | cons c cs =>
      rw [List.take_succ_cons]
      intro hc
      simp only [List.head?, Option.some.injEq] at hc
      exact h4 (hc ▸ List.mem_cons_self c cs)
  have htl : (id.take 2).getLast? ≠ some '/' := by
    intro hc
    exact h4 (List.take_subset 2 id (mem_of_getLastQ hc))
  have hidh : id.head? ≠ some '/' := by
    intro hc
    exact h4 (mem_of_headQ hc)
  have hidl : id.getLast? ≠ some '/' := by
    intro hc
    exact h4 (mem_of_getLastQ hc)
  have step1 : pjoin2 af (id.take 2) = af ++ '/' :: id.take 2 :=
    pjoin2_eq af _ h1 h2 hth
  have step2 : pjoin2 (af ++ '/' :: id.take 2) id =
      (af ++ '/' :: id.take 2) ++ '/' :: id := by
    apply pjoin2_eq
    · simp
    · rw [getLast?_append_consNe af '/' (id.take 2) ht2ne]
      exact htl
    · exact hidh
  have step3 : pjoin2 ((af ++ '/' :: id.take 2) ++ '/' :: id) att =
      ((af ++ '/' :: id.take 2) ++ '/' :: id) ++ '/' :: att := by
    apply pjoin2_eq
    · simp
    · rw [getLast?_append_consNe _ '/' id h3]
      exact hidl
    · exact h5
  rw [source_attachment_path, step1, step2, step3]

/-- Claim C5 witness: the worked example of the spec, a plain basename
reference, resolves to the expected content-addressed source path. -/
theorem claim_C5_witness :
    source_attachment_path (("attachments").toList)
        (("87f4a3-a24c-4a96-938f-f00ef1f67ef3").toList)
        (("attachment1.png").toList) =
      ("attachments/87/87f4a3-a24c-4a96-938f-f00ef1f67ef3/attachment1.png").toList := by
  rw [claim_C5_amended (("attachments").toList)
    (("87f4a3-a24c-4a96-938f-f00ef1f67ef3").toList)
    (("attachment1.png").toList) (by decide) (by decide) (by decide)
    (by decide) (by decide)]
  rfl

/-- Claim C5 counterexample: for the prefixed reference the computed source
path keeps the attachments directory component of the raw reference, and
differs from the path computed from the base filename, refuting the claim
that prefix components are stripped and never appear in the looked-up path. -/
theorem claim_C5_counterexample :
    source_attachment_path (("attachments").toList)
        (("87f4a3-a24c-4a96-938f-f00ef1f67ef3").toList)
        (("attachments/attachment1.png").toList) =
      ("attachments/87/87f4a3-a24c-4a96-938f-f00ef1f67ef3/attachments/attachment1.png").toList ∧
    source_attachment_path (("attachments").toList)
        (("87f4a3-a24c-4a96-938f-f00ef1f67ef3").toList)
        (("attachments/attachment1.png").toList) ≠
      source_attachment_path (("attachments").toList)
        (("87f4a3-a24c-4a96-938f-f00ef1f67ef3").toList)
        (basename (("attachments/attachment1.png").toList)) := by
  exact ⟨rfl, by decide⟩

/-- Claim C6: an attachment link resolves to an embedded reference under the
attachments folder and the current note identifier with the base filename of
the target; the resolver takes no use-title flag, so the result is the same
for either value of the flag that selects the copy destination. -/
theorem claim_C6 (af : List Char) (brain : Brain) (text p : List Char)
    (cur : Note) (useTitle : Bool) :
    replace_links af brain text (("attachment:").toList ++ p) cur =
      ("![[").toList ++ af ++ '/' :: cur.id ++ '/' :: basename p ++
        ("]]").toList := by
  have hne : ((("attachment:").toList ++ p).take 3) = ("att").toList := rfl
  have h11 : ((("attachment:").toList ++ p).take 11) =
    ("attachment:").toList := rfl
  have hd : ((("attachment:").toList ++ p).drop 11) = p := rfl
  rw [replace_links, hne, if_neg (by decide), h11, if_pos rfl]
  simp [hd]

theorem takeWhile_drop_self (p : Char → Bool) (cs : List Char) :
    cs = cs.takeWhile p ++ cs.drop (cs.takeWhile p).length := by
  induction cs with
  | nil => rfl
  | cons c cs ih =>
    by_cases h : p c = true
    · rw [List.takeWhile_cons_of_pos h]
      simpa using ih
    · rw [List.takeWhile_cons_of_neg (by simp [h])]
      simp

theorem linkMatchAt_decomp (l lbl tgt rest : List Char)
    (h : linkMatchAt l = some (lbl, tgt, rest)) :
    l = '[' :: lbl ++ ']' :: '(' :: tgt ++ ')' :: rest ∧
    ']' ∉ lbl ∧ ')' ∉ tgt ∧ rest.length + 5 ≤ l.length := by
  cases l with
  | nil => simp [linkMatchAt] at h
  | cons c cs =>
    simp only [linkMatchAt] at h
    split_ifs at h with hc he h2 ht h3
    · rw [Option.some.injEq, Prod.mk.injEq, Prod.mk.injEq] at h
      obtain ⟨h4, h5, h6⟩ := h
      subst hc
      subst h4
      subst h5
      subst h6
      set A := cs.takeWhile (fun x => x ≠ ']') with hA0
      set D := cs.drop (A.length + 2) with hD0
      set B := D.takeWhile (fun x => x ≠ ')') with hB0
      have e2 : cs.drop A.length = ']' :: '(' :: D := by
        have hB2 := List.take_append_drop 2 (cs.drop A.length)
        rw [h2] at hB2
        have hidx : (cs.drop A.length).drop 2 = D := by
          rw [hD0, List.drop_drop]
        rw [hidx] at hB2
        rw [← hB2]
        rfl
      have e4 : D.drop B.length = ')' :: D.drop (B.length + 1) := by
        have hE2 := List.take_append_drop 1 (D.drop B.length)
        rw [h3] at hE2
        have hidx2 : (D.drop B.length).drop 1 = D.drop (B.length + 1) := by
          rw [List.drop_drop]
        rw [hidx2] at hE2
        rw [← hE2]
        rfl
      have hDdecomp : D = B ++ ')' :: D.drop (B.length + 1) := by
        conv_lhs => rw [takeWhile_drop_self (fun x => x ≠ ')') D]
        rw [← hB0, e4]
      have hcs : cs = A ++ ']' :: '(' :: B ++ ')' :: D.drop (B.length + 1) := by
        conv_lhs => rw [takeWhile_drop_self (fun x => x ≠ ']') cs]
        rw [← hA0, e2]
        conv_lhs => rw [hDdecomp]
        simp [List.cons_append]
      refine ⟨?_, ?_, ?_, ?_⟩
      · conv_lhs => rw [hcs]
        simp [List.cons_append]
      · intro hm
        rw [hA0] at hm
        have := List.mem_takeWhile_imp hm
        simp at this
      · intro hm
        rw [hB0] at hm
        have := List.mem_takeWhile_imp hm
        simp at this
      · have hlen := congrArg List.length hcs
        simp only [List.length_append, List.length_cons] at hlen ⊢
        have hl1 : 1 ≤ A.length := by
          cases hx : A with
          | nil => exact absurd hx he
          | cons x xs => simp
        have hl2 : 1 ≤ B.length := by
          cases hx : B with
          | nil => exact absurd hx ht
          | cons x xs => simp
        omega

theorem linkSplitF_ne_nil (fuel : Nat) (text : List Char) :
    linkSplitF fuel text ≠ [] := by
  cases fuel with
  | zero => simp [linkSplitF]
  | succ fuel =>
    cases text with
    | nil => simp [linkSplitF]
    | cons c cs =>
      rw [linkSplitF]
      cases linkMatchAt (c :: cs) with
      | some m => simp
      | none =>
        cases linkSplitF fuel cs with
        | nil => simp
        | cons p ps => simp

theorem interleave_cons_piece (c : Char) (p : List Char)
    (ps rs : List (List Char)) :
    interleave ((c :: p) :: ps) rs = c :: interleave (p :: ps) rs := by
  cases rs with
  | nil => simp [interleave]
  | cons r rs => simp [interleave]

theorem subLinks_decomp (fuel : Nat) :
    ∀ (text : List Char), text.length ≤ fuel →
      ∀ (f : List Char → List Char → List Char),
        subLinksF f fuel text =
          interleave (linkSplitF fuel text)
            ((linkMatchesF fuel text).map (fun pr => f pr.1 pr.2)) ∧
        interleave (linkSplitF fuel text)
            ((linkMatchesF fuel text).map linkSource) = text ∧
        ∀ pr ∈ linkMatchesF fuel text, ']' ∉ pr.1 ∧ ')' ∉ pr.2 := by
  induction fuel with
  | zero =>
    intro text hlen f
    have : text = [] := by
      cases text with
      | nil => rfl
      | cons c cs => simp at hlen
    subst this
    refine ⟨rfl, rfl, by simp [linkMatchesF]⟩
  | succ fuel ih =>
    intro text hlen f
    cases text with
    | nil => refine ⟨rfl, rfl, by simp [linkMatchesF]⟩
    | cons c cs =>
      cases hm : linkMatchAt (c :: cs) with
      | some m =>
        obtain ⟨lbl, tgt, rest⟩ := m
        obtain ⟨hdec, hlbl, htgt, hlt⟩ :=
          linkMatchAt_decomp (c :: cs) lbl tgt rest hm
        have hrest : rest.length ≤ fuel := by
          simp only [List.length_cons] at hlt hlen
          omega
        obtain ⟨ih1, ih2, ih3⟩ := ih rest hrest f
        rw [subLinksF, linkSplitF, linkMatchesF, hm]
        refine ⟨?_, ?_, ?_⟩
        · simp only [List.map_cons, interleave, List.nil_append]
          rw [ih1]
        · simp only [List.map_cons, interleave, List.nil_append]
          rw [ih2, linkSource]
          rw [hdec]
          simp
        · intro pr hpr
          rw [List.mem_cons] at hpr
          cases hpr with
          | inl hpr => subst hpr; exact ⟨hlbl, htgt⟩
          | inr hpr => exact ih3 pr hpr
      | none =>
        have hcs : cs.length ≤ fuel := by
          simp only [List.length_cons] at hlen
          omega
        obtain ⟨ih1, ih2, ih3⟩ := ih cs hcs f
        rw [subLinksF, linkSplitF, linkMatchesF, hm]
        cases hsp : linkSplitF fuel cs with
        | nil => exact absurd hsp (linkSplitF_ne_nil fuel cs)
        | cons p ps =>
          rw [hsp] at ih1 ih2
          refine ⟨?_, ?_, ih3⟩
          · rw [interleave_cons_piece, ih1]
          · rw [interleave_cons_piece, ih2]

/-- Claim C8 (amended): link rewriting matches the two-part construct
non-overlapping and left-to-right over the whole text, and each match is
replaced independently: the output interleaves the untouched literal pieces
with the replacement of each match, and re-emitting each match verbatim
reconstructs the input exactly.  A matched label contains no closing bracket
and a matched target no closing parenthesis, but both may contain line
breaks, so a single match can span lines. -/
theorem claim_C8_amended (f : List Char → List Char → List Char)
    (text : List Char) :
    subLinks f text =
      interleave (linkSplit text)
        ((linkMatches text).map (fun pr => f pr.1 pr.2)) ∧
    interleave (linkSplit text) ((linkMatches text).map linkSource) = text ∧
    ∀ pr ∈ linkMatches text, ']' ∉ pr.1 ∧ ')' ∉ pr.2 :=
  subLinks_decomp text.length text (Nat.le_refl _) f

/-- Claim C8 counterexample: the pattern matches a label containing a line
break (the label class excludes only closing brackets), and the substitution
replaces that match, so a single match does span a line break, refuting the
within-one-line part of the claim. -/
theorem claim_C8_counterexample :
    linkMatches (("x[a\nb](t)y").toList) =
      [(("a\nb").toList, ("t").toList)] ∧
    '\n' ∈ (("a\nb").toList) ∧
    subLinks (fun _ _ => ("R").toList) (("x[a\nb](t)y").toList) =
      ("xRy").toList := by
  exact ⟨rfl, by decide, rfl⟩

theorem takeWhile_all (p : Char → Bool) (l : List Char)
    (h : ∀ x ∈ l, p x = true) : l.takeWhile p = l := by
  induction l with
  | nil => rfl
  | cons c cs ih =>
    rw [List.takeWhile_cons_of_pos (h c (List.mem_cons_self c cs))]
    rw [ih (fun x hx => h x (List.mem_cons_of_mem c hx))]

theorem takeWhile_head_neg (p : Char → Bool) (l : List Char)
    (h : ∀ a, l.head? = some a → p a = false) : l.takeWhile p = [] := by
  cases l with
  | nil => rfl
  | cons c cs => rw [List.takeWhile_cons_of_neg (by simp [h c rfl])]

theorem dropWhile_head_neg (p : Char → Bool) (l : List Char)
    (h : ∀ a, l.head? = some a → p a = false) : l.dropWhile p = l := by
  cases l with
  | nil => rfl
  | cons c cs => rw [List.dropWhile_cons_of_neg (by simp [h c rfl])]

theorem strip_eq_self (l : Line)
    (h1 : ∀ a, l.head? = some a → isWsChar a = false)
    (h2 : ∀ a, l.getLast? = some a → isWsChar a = false) : strip l = l := by
  rw [strip, dropWhile_head_neg isWsChar l h1,
    dropWhile_head_neg isWsChar l.reverse
      (fun a ha => h2 a (by rwa [List.head?_reverse] at ha)),
    List.reverse_reverse]

theorem getLast?_cons_ne (c : Char) (l : Line) (h : l ≠ []) :
    (c :: l).getLast? = l.getLast? := by
  cases l with
  | nil => exact absurd rfl h
  | cons y ys => rw [List.getLast?_cons_cons]

theorem ne_of_space_mem (l : Line) (h : ' ' ∈ l) :
    l ≠ pPROPERTIES ∧ l ≠ pEND := by
  constructor
  · intro he
    rw [he] at h
    revert h
    decide
  · intro he
    rw [he] at h
    revert h
    decide

theorem headingMatch_none_head (l : Line)
    (h : ∀ a, l.head? = some a → (a = '*') = false) : headingMatch l = none := by
  rw [headingMatch]
  rw [takeWhile_head_neg (fun c => c = '*') l (by
    intro a ha
    simpa using h a ha)]
  simp

theorem headingMatch_render (lvl : Nat) (hl : 1 ≤ lvl) (c : Char) (ts : Line)
    (hc : isWsChar c = false) (hnl : ∀ x ∈ c :: ts, (x = '\n') = false) :
    headingMatch (List.replicate lvl '*' ++ ' ' :: c :: ts) =
      some (lvl, c :: ts) := by
  have hstars : (List.replicate lvl '*' ++ ' ' :: c :: ts).takeWhile
      (fun x => x = '*') = List.replicate lvl '*' := by
    rw [List.takeWhile_append_of_pos (by
      intro a ha
      rw [List.eq_of_mem_replicate ha]
      simp)]
    rw [List.takeWhile_cons_of_neg (by simp)]
    simp
  rw [headingMatch, hstars]
  rw [if_neg (by
    intro he
    have := congrArg List.length he
    simp at this
    omega)]
  rw [List.length_replicate, List.drop_left' (List.length_replicate lvl '*')]
  have hm : ((' ' :: c :: ts).takeWhile isWsChar).length = 1 := by
    rw [List.takeWhile_cons_of_pos (by decide)]
    rw [List.takeWhile_cons_of_neg (by simp [hc])]
    rfl
  show Option.map (fun t => (lvl, t))
      (titleFrom (' ' :: c :: ts)
        ((List.takeWhile isWsChar (' ' :: c :: ts)).length)) =
    some (lvl, c :: ts)
  rw [hm]
  show Option.map (fun t => (lvl, t))
      (if c = '\n' then titleFrom (' ' :: c :: ts) 0
       else some ((c :: ts).takeWhile (fun d => d ≠ '\n'))) =
    some (lvl, c :: ts)
  rw [if_neg (by
    have := hnl c (List.mem_cons_self c ts)
    simp at this
    simp [this])]
  rw [takeWhile_all (fun d => d ≠ '\n') (c :: ts) (by
    intro x hx
    have := hnl x hx
    simp at this
    simp [this])]
  rfl

theorem startsWithCI_star (xs : List Char) :
    startsWithCI (("#+title:").toList) ('*' :: xs) = false := by
  show (decide ('*'.toLower = '#') && startsWithCI (("+title:").toList) xs) =
    false
  rw [show decide ('*'.toLower = '#') = false from by decide]
  simp

theorem titleLineMatch_star (xs : List Char) :
    titleLineMatch ('*' :: xs) = none := by
  rw [titleLineMatch]
  rw [List.dropWhile_cons_of_neg (by decide)]
  rw [startsWithCI_star]
  simp

theorem takeWhile_append_stop (p : Char → Bool) (k : List Char) (a : Char)
    (r : List Char) (hk : ∀ x ∈ k, p x = true) (ha : p a = false) :
    (k ++ a :: r).takeWhile p = k := by
  rw [List.takeWhile_append_of_pos hk]
  rw [List.takeWhile_cons_of_neg (by simp [ha])]
  simp

theorem propLineMatch_render (k v : Line) (hk : k ≠ [])
    (hkc : ∀ x ∈ k, (x = ':') = false)
    (hv : v ≠ []) (hvh : ∀ a, v.head? = some a → isWsChar a = false)
    (hvnl : ∀ x ∈ v, (x = '\n') = false) :
    propLineMatch (':' :: k ++ ':' :: ' ' :: v) = some (k, v) := by
  rw [show (':' :: k ++ ':' :: ' ' :: v) = ':' :: (k ++ ':' :: ' ' :: v) from
    rfl]
  rw [propLineMatch]
  have hkey : (k ++ ':' :: ' ' :: v).takeWhile (fun x => x ≠ ':') = k := by
    apply takeWhile_append_stop
    · intro x hx
      simpa using hkc x hx
    · simp
  rw [hkey, if_neg hk]
  rw [List.drop_left' rfl]
  have hm : ((' ' :: v).takeWhile isWsChar).length = 1 := by
    rw [List.takeWhile_cons_of_pos (by decide)]
    rw [takeWhile_head_neg isWsChar v hvh]
    rfl
  show Option.map (fun v2 => (k, v2))
      (captureFrom (' ' :: v) ((List.takeWhile isWsChar (' ' :: v)).length)) =
    some (k, v)
  rw [hm]
  cases v with
  | nil => exact absurd rfl hv
  | cons d ds =>
    show Option.map (fun v2 => (k, v2))
        (if d = '\n' then captureFrom (' ' :: d :: ds) 0
         else some ((d :: ds).takeWhile (fun x => x ≠ '\n'))) =
      some (k, d :: ds)
    rw [if_neg (by
      have := hvnl d (List.mem_cons_self d ds)
      simp at this
      simp [this])]
    rw [takeWhile_all (fun x => x ≠ '\n') (d :: ds) (by
      intro x hx
      have := hvnl x hx
      simp at this
      simp [this])]
    rfl

theorem ne_nil_of_not_isEmpty {l : List Char} (h : (!(l.isEmpty)) = true) :
    l ≠ [] := by
  cases l with
  | nil => simp at h
  | cons c cs => simp

theorem headQ_cond {l : Line}
    (h : (match l.head? with
          | some a => !(isWsChar a)
          | none => false) = true) :
    ∀ a, l.head? = some a → isWsChar a = false := by
  intro a ha
  rw [ha] at h
  simpa using h

theorem headQ_cond' {l : Line}
    (h : (match l.head? with
          | some a => !(isWsChar a)
          | none => true) = true) :
    ∀ a, l.head? = some a → isWsChar a = false := by
  intro a ha
  rw [ha] at h
  simpa using h

theorem lastQ_cond {l : Line}
    (h : (match l.getLast? with
          | some a => !(isWsChar a)
          | none => false) = true) :
    ∀ a, l.getLast? = some a → isWsChar a = false := by
  intro a ha
  rw [ha] at h
  simpa using h

theorem lastQ_cond' {l : Line}
    (h : (match l.getLast? with
          | some a => !(isWsChar a)
          | none => true) = true) :
    ∀ a, l.getLast? = some a → isWsChar a = false := by
  intro a ha
  rw [ha] at h
  simpa using h

theorem tryTag_none (tag : List Char) (c : Char) (cs : List Char)
    (htag : tag.head? = some '[') (hc : (c = '[') = false) :
    tryTag tag (c :: cs) = none := by
  cases tag with
  | nil => simp at htag
  | cons t tr =>
    rw [List.head?_cons, Option.some.injEq] at htag
    subst htag
    rw [tryTag, if_neg (by
      rw [List.length_cons, List.take_succ_cons]
      intro he
      rw [List.cons.injEq] at he
      rw [he.1] at hc
      simp at hc)]

theorem findTagsF_nil (tag : List Char) (htag : tag.head? = some '[') :
    ∀ (fuel : Nat) (l : List Char), (∀ x ∈ l, (x = '[') = false) →
      findTagsF tag fuel l = [] := by
  intro fuel
  induction fuel with
  | zero => intro l h; cases l <;> rfl
  | succ fuel ih =>
    intro l h
    cases l with
    | nil => rfl
    | cons c cs =>
      rw [findTagsF, tryTag_none tag c cs htag (h c (List.mem_cons_self c cs))]
      exact ih cs (fun x hx => h x (List.mem_cons_of_mem c hx))

theorem scanLine_nil (l : Line) (h : ∀ x ∈ l, (x = '[') = false) :
    scanLine l = [] := by
  rw [scanLine, findTagsF_nil attTag rfl l.length l h,
    findTagsF_nil fileTag rfl l.length l h]
  rfl

theorem renderEntry_parse (kv : Line × Line) (h : wfEntry kv = true) :
    strip (renderEntry kv) = renderEntry kv ∧
    renderEntry kv ≠ pPROPERTIES ∧ renderEntry kv ≠ pEND ∧
    propLineMatch (renderEntry kv) = some kv ∧
    headingMatch (renderEntry kv) = none ∧
    scanLine (renderEntry kv) = [] := by
  obtain ⟨k, v⟩ := kv
  replace h : (wfKey k && wfVal v) = true := h
  rw [Bool.and_eq_true] at h
  obtain ⟨hk, hv⟩ := h
  rw [wfKey, Bool.and_eq_true] at hk
  obtain ⟨hk1, hk2⟩ := hk
  rw [List.all_eq_true] at hk2
  rw [wfVal, Bool.and_eq_true, Bool.and_eq_true, Bool.and_eq_true] at hv
  obtain ⟨⟨⟨hv1, hv2⟩, hv3⟩, hv4⟩ := hv
  rw [List.all_eq_true] at hv4
  have hkne := ne_nil_of_not_isEmpty hk1
  have hvne := ne_nil_of_not_isEmpty hv1
  have hkc : ∀ x ∈ k, (x = ':') = false := by
    intro x hx
    have := hk2 x hx
    rw [Bool.and_eq_true, Bool.and_eq_true] at this
    simpa using this.1.1
  have hknl : ∀ x ∈ k, (x = '[') = false := by
    intro x hx
    have := hk2 x hx
    rw [Bool.and_eq_true, Bool.and_eq_true] at this
    simpa using this.2
  have hvnl : ∀ x ∈ v, (x = '\n') = false := by
    intro x hx
    have := hv4 x hx
    rw [Bool.and_eq_true] at this
    simpa using this.1
  have hvbr : ∀ x ∈ v, (x = '[') = false := by
    intro x hx
    have := hv4 x hx
    rw [Bool.and_eq_true] at this
    simpa using this.2
  have hlast : (':' :: k ++ ':' :: ' ' :: v).getLast? = v.getLast? := by
    rw [List.getLast?_append_of_ne_nil (':' :: k) (by simp)]
    rw [getLast?_cons_ne ':' (' ' :: v) (by simp), getLast?_cons_ne ' ' v hvne]
  have hhead : (':' :: k ++ ':' :: ' ' :: v).head? = some ':' := rfl
  have hsp : ' ' ∈ (':' :: k ++ ':' :: ' ' :: v) := by simp
  refine ⟨?_, (ne_of_space_mem _ hsp).1, (ne_of_space_mem _ hsp).2, ?_, ?_, ?_⟩
  · apply strip_eq_self
    · intro a ha
      rw [show renderEntry (k, v) = ':' :: k ++ ':' :: ' ' :: v from rfl,
        hhead, Option.some.injEq] at ha
      subst ha
      decide
    · intro a ha
      rw [show renderEntry (k, v) = ':' :: k ++ ':' :: ' ' :: v from rfl,
        hlast] at ha
      exact lastQ_cond hv3 a ha
  · exact propLineMatch_render k v hkne hkc hvne (headQ_cond hv2) hvnl
  · apply headingMatch_none_head
    intro a ha
    rw [show renderEntry (k, v) = ':' :: k ++ ':' :: ' ' :: v from rfl,
      hhead, Option.some.injEq] at ha
    subst ha
    decide
  · apply scanLine_nil
    intro x hx
    rw [show renderEntry (k, v) = ':' :: (k ++ ':' :: ' ' :: v) from rfl] at hx
    rw [List.mem_cons] at hx
    cases hx with
    | inl hx => subst hx; decide
    | inr hx =>
      rw [List.mem_append] at hx
      cases hx with
      | inl hx => exact hknl x hx
      | inr hx =>
        rw [List.mem_cons] at hx
        cases hx with
        | inl hx => subst hx; decide
        | inr hx =>
          rw [List.mem_cons] at hx
          cases hx with
          | inl hx => subst hx; decide
          | inr hx => exact hvbr x hx

theorem parseDrawer_break (acc : List (Line × Line)) (tail : List Line)
    (h : tailOk tail = true) : parseDrawer false acc tail = (acc, tail) := by
  cases tail with
  | nil => rfl
  | cons l ls =>
    rw [tailOk, Bool.and_eq_true, decide_eq_true_eq, decide_eq_true_eq] at h
    rw [parseDrawer, if_neg h.1, if_neg h.2]
    rfl

theorem parseDrawer_true_entries (es : List (Line × Line))
    (hwf : ∀ kv ∈ es, wfEntry kv = true) :
    ∀ (acc : List (Line × Line)) (tail : List Line),
      parseDrawer true acc (es.map renderEntry ++ tail) =
        parseDrawer true (acc ++ es) tail := by
  induction es with
  | nil => intro acc tail; simp
  | cons kv rest ih =>
    intro acc tail
    obtain ⟨hstrip, hnp, hne, hprop, _, _⟩ :=
      renderEntry_parse kv (hwf kv (List.mem_cons_self kv rest))
    rw [List.map_cons, List.cons_append, parseDrawer]
    rw [hstrip, if_neg hnp, if_neg hne, if_pos rfl, hprop]
    show parseDrawer true (acc ++ [kv]) (List.map renderEntry rest ++ tail) =
      parseDrawer true (acc ++ kv :: rest) tail
    rw [ih (fun x hx => hwf x (List.mem_cons_of_mem kv hx)) (acc ++ [kv]) tail]
    rw [List.append_assoc]
    rfl

theorem parseDrawer_render (dr : Option (List (Line × Line)))
    (hwf : ∀ kv ∈ entriesOf dr, wfEntry kv = true) (tail : List Line)
    (htail : tailOk tail = true) :
    parseDrawer false [] (renderDrawer dr ++ tail) = (entriesOf dr, tail) := by
  cases dr with
  | none => exact parseDrawer_break [] tail htail
  | some es =>
    have hP : ∀ ls, parseDrawer false [] (pPROPERTIES :: ls) =
        parseDrawer true [] ls := fun ls => rfl
    have hE : ∀ (acc2 : List (Line × Line)) ls,
        parseDrawer true acc2 (pEND :: ls) = parseDrawer false acc2 ls :=
      fun acc2 ls => rfl
    have harr : renderDrawer (some es) ++ tail =
        pPROPERTIES :: (List.map renderEntry es ++ ([pEND] ++ tail)) := by
      rw [renderDrawer]
      simp [List.append_assoc]
    rw [harr, hP]
    rw [parseDrawer_true_entries es hwf [] ([pEND] ++ tail)]
    rw [List.singleton_append, hE]
    rw [parseDrawer_break ([] ++ es) tail htail]
    simp [entriesOf]

theorem wfTitle_parts (t : Line) (h : wfTitle t = true) :
    t ≠ [] ∧ (∀ a, t.head? = some a → isWsChar a = false) ∧
    (∀ a, t.getLast? = some a → isWsChar a = false) ∧
    (∀ x ∈ t, (x = (Char.ofNat 10)) = false) := by
  rw [wfTitle, Bool.and_eq_true, Bool.and_eq_true] at h
  obtain ⟨⟨h1, h2⟩, h3⟩ := h
  rw [List.all_eq_true] at h3
  refine ⟨?_, headQ_cond h1, lastQ_cond' h2, ?_⟩
  · cases t with
    | nil => simp at h1
    | cons c cs => simp
  · intro x hx
    have := h3 x hx
    simpa using this

theorem wfBodyLine_parts (b : Line) (h : wfBodyLine b = true) :
    headingMatch b = none ∧ ¬(strip b = pPROPERTIES) ∧ ¬(strip b = pEND) := by
  rw [wfBodyLine, Bool.and_eq_true, Bool.and_eq_true] at h
  obtain ⟨⟨h1, h2⟩, h3⟩ := h
  refine ⟨?_, by simpa using h2, by simpa using h3⟩
  rwa [Option.isNone_iff_eq_none] at h1

theorem wfEntry_parts (k v : Line) (h : wfEntry (k, v) = true) :
    k ≠ [] ∧ (∀ c ∈ k, ¬(c = ':')) ∧ v ≠ [] ∧
      (∀ a, v.head? = some a → isWsChar a = false) := by
  replace h : (wfKey k && wfVal v) = true := h
  rw [Bool.and_eq_true] at h
  obtain ⟨hk, hv⟩ := h
  rw [wfKey, Bool.and_eq_true] at hk
  obtain ⟨hk1, hk2⟩ := hk
  rw [List.all_eq_true] at hk2
  rw [wfVal, Bool.and_eq_true, Bool.and_eq_true, Bool.and_eq_true] at hv
  obtain ⟨⟨⟨hv1, hv2⟩, _⟩, _⟩ := hv
  refine ⟨ne_nil_of_not_isEmpty hk1, ?_, ne_nil_of_not_isEmpty hv1,
    headQ_cond hv2⟩
  intro c hc
  have := hk2 c hc
  rw [Bool.and_eq_true, Bool.and_eq_true] at this
  simpa using this.1.1

theorem wfSeg_parts (s : WfSeg) (h : wfSeg s = true) :
    1 ≤ s.level ∧ wfTitle s.title = true ∧
      (∀ kv ∈ entriesOf s.drawer, wfEntry kv = true) ∧
      (∀ b ∈ s.body, wfBodyLine b = true) := by
  rw [wfSeg, Bool.and_eq_true, Bool.and_eq_true, Bool.and_eq_true] at h
  obtain ⟨⟨⟨h1, h2⟩, h3⟩, h4⟩ := h
  refine ⟨by simpa using h1, h2, ?_, List.all_eq_true.mp h4⟩
  cases hd : s.drawer with
  | none =>
    intro kv hkv
    simp [entriesOf] at hkv
  | some es =>
    rw [hd] at h3
    replace h3 : es.all wfEntry = true := h3
    intro kv hkv
    exact List.all_eq_true.mp h3 kv hkv

theorem notHeading_of (l : Line) (h : headingMatch l = none) :
    notHeading l = true := by
  rw [notHeading, h]
  rfl

theorem takeWhile_stars (lvl : Nat) (rest : Line) :
    (List.replicate lvl '*' ++ ' ' :: rest).takeWhile (fun x => x = '*') =
      List.replicate lvl '*' := by
  rw [List.takeWhile_append_of_pos (by
    intro a ha
    rw [List.eq_of_mem_replicate ha]
    simp)]
  rw [List.takeWhile_cons_of_neg (by simp)]
  simp

theorem headline_facts (lvl : Nat) (hl : 1 ≤ lvl) (t : Line)
    (ht : wfTitle t = true) :
    headingMatch (List.replicate lvl '*' ++ ' ' :: t) = some (lvl, t) ∧
    strip (List.replicate lvl '*' ++ ' ' :: t) =
      List.replicate lvl '*' ++ ' ' :: t ∧
    titleLineMatch (List.replicate lvl '*' ++ ' ' :: t) = none ∧
    ¬(List.replicate lvl '*' ++ ' ' :: t = pPROPERTIES) ∧
    ¬(List.replicate lvl '*' ++ ' ' :: t = pEND) ∧
    isHeadingBreak (List.replicate lvl '*' ++ ' ' :: t) = true := by
  obtain ⟨htne, hth, htl, htnl⟩ := wfTitle_parts t ht
  cases t with
  | nil => exact absurd rfl htne
  | cons c ts =>
  have hc : isWsChar c = false := hth c rfl
  obtain ⟨n, rfl⟩ : ∃ n, lvl = n + 1 := ⟨lvl - 1, by omega⟩
  have hhd : (List.replicate (n + 1) '*' ++ ' ' :: c :: ts).head? = some '*' := by
    rw [List.replicate_succ, List.cons_append, List.head?_cons]
  refine ⟨headingMatch_render (n + 1) (by omega) c ts hc htnl, ?_, ?_, ?_, ?_, ?_⟩
  · apply strip_eq_self
    · intro a ha
      rw [hhd, Option.some.injEq] at ha
      subst ha
      decide
    · intro a ha
      rw [List.getLast?_append_of_ne_nil (List.replicate (n + 1) '*')
        (by simp : (' ' :: c :: ts : Line) ≠ [])] at ha
      rw [getLast?_cons_ne ' ' (c :: ts) (by simp)] at ha
      exact htl a ha
  · rw [List.replicate_succ, List.cons_append]
    exact titleLineMatch_star _
  · intro he
    rw [he] at hhd
    exact absurd hhd (by decide)
  · intro he
    rw [he] at hhd
    exact absurd hhd (by decide)
  · show (decide
        (¬((List.replicate (n + 1) '*' ++ ' ' :: c :: ts).takeWhile
          (fun x => x = '*') = [])) &&
      (match ((List.replicate (n + 1) '*' ++ ' ' :: c :: ts).drop
          ((List.replicate (n + 1) '*' ++ ' ' :: c :: ts).takeWhile
            (fun x => x = '*')).length).head? with
       | some x => isWsChar x
       | none => true)) = true
    rw [takeWhile_stars]
    rw [List.length_replicate, List.drop_left' (List.length_replicate (n + 1) '*')]
    rw [Bool.and_eq_true]
    constructor
    · rw [List.replicate_succ]
      simp
    · rfl

theorem renderDoc_first (s : WfSeg) (rest : List WfSeg) :
    renderDoc (s :: rest) =
      (List.replicate s.level '*' ++ ' ' :: s.title) ::
        (renderDrawer s.drawer ++ (s.body ++ renderDoc rest)) := by
  unfold renderDoc
  rw [List.flatMap_cons]
  rw [renderSeg]
  simp [List.cons_append, List.append_assoc]

theorem renderDoc_head_nh (rest : List WfSeg)
    (hr : ∀ s ∈ rest, wfSeg s = true) :
    ∀ a, (renderDoc rest).head? = some a → notHeading a = false := by
  cases rest with
  | nil => intro a ha; exact Option.noConfusion ha
  | cons s2 r2 =>
    intro a ha
    obtain ⟨hlvl, ht, _, _⟩ := wfSeg_parts s2 (hr s2 (List.mem_cons_self s2 r2))
    obtain ⟨hhm, _, _, _, _, _⟩ := headline_facts s2.level hlvl s2.title ht
    rw [renderDoc_first s2 r2, List.head?_cons, Option.some.injEq] at ha
    subst ha
    rw [notHeading, hhm]
    rfl

theorem takeWhile_nh_append (x y : List Line)
    (hx : ∀ l ∈ x, notHeading l = true)
    (hy : ∀ a, y.head? = some a → notHeading a = false) :
    (x ++ y).takeWhile notHeading = x ∧ (x ++ y).dropWhile notHeading = y := by
  induction x with
  | nil =>
    cases y with
    | nil => exact ⟨rfl, rfl⟩
    | cons a t =>
      have := hy a rfl
      constructor
      · rw [List.nil_append, List.takeWhile_cons_of_neg (by simp [this])]
      · rw [List.nil_append, List.dropWhile_cons_of_neg (by simp [this])]
  | cons l ls ih =>
    obtain ⟨ih1, ih2⟩ := ih (fun q hq => hx q (List.mem_cons_of_mem l hq))
    have hl := hx l (List.mem_cons_self l ls)
    constructor
    · rw [List.cons_append, List.takeWhile_cons_of_pos (by simp [hl]), ih1]
    · rw [List.cons_append, List.dropWhile_cons_of_pos (by simp [hl]), ih2]

theorem tailOk_render (body : List Line) (rest : List WfSeg)
    (hb : ∀ b ∈ body, wfBodyLine b = true)
    (hr : ∀ s ∈ rest, wfSeg s = true) :
    tailOk (body ++ renderDoc rest) = true := by
  cases body with
  | cons b bs =>
    obtain ⟨_, hbp, hbe⟩ := wfBodyLine_parts b (hb b (List.mem_cons_self b bs))
    show (decide (¬(strip b = pPROPERTIES)) && decide (¬(strip b = pEND))) = true
    simp [hbp, hbe]
  | nil =>
    rw [List.nil_append]
    cases rest with
    | nil => rfl
    | cons s2 r2 =>
      obtain ⟨hlvl, ht, _, _⟩ := wfSeg_parts s2 (hr s2 (List.mem_cons_self s2 r2))
      obtain ⟨_, hstrip, _, hnp, hne, _⟩ := headline_facts s2.level hlvl s2.title ht
      rw [renderDoc_first s2 r2]
      show (decide (¬(strip (List.replicate s2.level '*' ++ ' ' :: s2.title) =
          pPROPERTIES)) &&
        decide (¬(strip (List.replicate s2.level '*' ++ ' ' :: s2.title) =
          pEND))) = true
      rw [hstrip]
      simp [hnp, hne]

theorem drawer_line_facts (dr : Option (List (Line × Line)))
    (hwf : ∀ kv ∈ entriesOf dr, wfEntry kv = true) :
    ∀ l ∈ renderDrawer dr, headingMatch l = none ∧ scanLine l = [] := by
  cases dr with
  | none => intro l hl; simp [renderDrawer] at hl
  | some es =>
    intro l hl
    rw [renderDrawer] at hl
    rw [List.mem_append, List.mem_cons, List.mem_map, List.mem_singleton] at hl
    rcases hl with (rfl | ⟨kv, hkv, rfl⟩) | rfl
    · exact ⟨rfl, rfl⟩
    · obtain ⟨_, _, _, _, hhm, hscan⟩ := renderEntry_parse kv (hwf kv hkv)
      exact ⟨hhm, hscan⟩
    · exact ⟨rfl, rfl⟩

theorem scanBody_nil_of (x : List Line) (h : ∀ l ∈ x, scanLine l = []) :
    scanBody x = [] := by
  induction x with
  | nil => rfl
  | cons l ls ih =>
    rw [scanBody_cons, h l (List.mem_cons_self l ls), List.nil_append]
    exact ih (fun q hq => h q (List.mem_cons_of_mem l hq))

theorem scanBody_append (x y : List Line) :
    scanBody (x ++ y) = scanBody x ++ scanBody y := by
  induction x with
  | nil => simp [scanBody]
  | cons l ls ih =>
    rw [List.cons_append, scanBody_cons, scanBody_cons, ih, List.append_assoc]

theorem legacyIdMatch_entry (v : Line) (hv : v ≠ [])
    (hvh : ∀ a, v.head? = some a → isWsChar a = false)
    (hhex : ∀ x ∈ v, isHexDash x = true) :
    legacyIdMatch (renderEntry (pID, v)) = some v := by
  have h1 : (renderEntry (pID, v)).take 4 = ((":ID:").toList) := rfl
  have hdrop : (renderEntry (pID, v)).drop 4 = ' ' :: v := rfl
  have hw : (' ' :: v).takeWhile isWsChar = [' '] := by
    rw [List.takeWhile_cons_of_pos (by decide)]
    rw [takeWhile_head_neg isWsChar v hvh]
  have hvv : v.takeWhile isHexDash = v := takeWhile_all isHexDash v hhex
  rw [legacyIdMatch, if_pos h1]
  show (if (((renderEntry (pID, v)).drop 4).takeWhile isWsChar) = [] then none
        else if ((((renderEntry (pID, v)).drop 4).drop
            (((renderEntry (pID, v)).drop 4).takeWhile isWsChar).length
            ).takeWhile isHexDash) = [] then (none : Option Line)
        else some ((((renderEntry (pID, v)).drop 4).drop
            (((renderEntry (pID, v)).drop 4).takeWhile isWsChar).length
            ).takeWhile isHexDash)) = some v
  rw [hdrop, hw]
  rw [if_neg (by simp)]
  show (if v.takeWhile isHexDash = [] then (none : Option Line)
        else some (v.takeWhile isHexDash)) = some v
  rw [hvv, if_neg hv]

theorem legacyIdMatch_entry_ne (k v : Line) (hk : k ≠ [])
    (hkc : ∀ c ∈ k, ¬(c = ':')) (hne : ¬(k = pID)) :
    legacyIdMatch (renderEntry (k, v)) = none := by
  cases k with
  | nil => exact absurd rfl hk
  | cons x xs =>
    cases xs with
    | nil =>
      have hcond : ¬((renderEntry ([x], v)).take 4 = ((":ID:").toList)) := by
        intro he
        have e3 := Option.some.inj (congrArg (fun l => l.get? 2) he)
        exact absurd e3 (by decide)
      rw [legacyIdMatch, if_neg hcond]
    | cons y ys =>
      cases ys with
      | nil =>
        have hcond : ¬((renderEntry ([x, y], v)).take 4 =
            ((":ID:").toList)) := by
          intro he
          have e1 := Option.some.inj (congrArg (fun l => l.get? 1) he)
          have e2 := Option.some.inj (congrArg (fun l => l.get? 2) he)
          subst e1
          subst e2
          exact hne rfl
        rw [legacyIdMatch, if_neg hcond]
      | cons z zs =>
        have hcond : ¬((renderEntry (x :: y :: z :: zs, v)).take 4 =
            ((":ID:").toList)) := by
          intro he
          have e3 := Option.some.inj (congrArg (fun l => l.get? 3) he)
          exact absurd e3 (hkc z (by simp))
        rw [legacyIdMatch, if_neg hcond]

theorem idScan_stop (acc : Option Line) (tail : List Line)
    (h : tailOk tail = true) : Legacy.idScan false acc tail = acc := by
  cases tail with
  | nil => rfl
  | cons l ls =>
    rw [tailOk, Bool.and_eq_true, decide_eq_true_eq, decide_eq_true_eq] at h
    simp only [Legacy.idScan]
    rw [if_neg h.1, if_neg h.2, if_neg (by decide : ¬ (false = true))]

theorem idScan_true_entries (es : List (Line × Line))
    (hwf : ∀ kv ∈ es, wfEntry kv = true)
    (hlow : ∀ kv ∈ es,
      (!(decide (kv.1 = pID)) || kv.2.all isHexDash) = true) :
    ∀ (acc : Option Line) (tail : List Line),
      Legacy.idScan true acc (es.map renderEntry ++ tail) =
        Legacy.idScan true
          (match getProp es pID with | some v => some v | none => acc) tail := by
  induction es with
  | nil => intro acc tail; rfl
  | cons kv rest ih =>
    intro acc tail
    have hwfr : ∀ q ∈ rest, wfEntry q = true :=
      fun q hq => hwf q (List.mem_cons_of_mem kv hq)
    have hlowr : ∀ q ∈ rest,
        (!(decide (q.1 = pID)) || q.2.all isHexDash) = true :=
      fun q hq => hlow q (List.mem_cons_of_mem kv hq)
    obtain ⟨hstrip, hnp, hne0, _, _, _⟩ :=
      renderEntry_parse kv (hwf kv (List.mem_cons_self kv rest))
    obtain ⟨k, v⟩ := kv
    obtain ⟨hkne, hkc, hvne, hvh⟩ :=
      wfEntry_parts k v (hwf (k, v) (List.mem_cons_self (k, v) rest))
    rw [List.map_cons, List.cons_append]
    simp only [Legacy.idScan]
    rw [hstrip, if_neg hnp, if_neg hne0, if_pos trivial]
    by_cases hkid : k = pID
    · subst hkid
      have hall : v.all isHexDash = true := by
        simpa using hlow (pID, v) (List.mem_cons_self (pID, v) rest)
      have hmatch := legacyIdMatch_entry v hvne hvh (List.all_eq_true.mp hall)
      rw [hmatch]
      show Legacy.idScan true (some v) (List.map renderEntry rest ++ tail) =
        Legacy.idScan true
          (match getProp ((pID, v) :: rest) pID with
           | some w => some w
           | none => acc) tail
      rw [ih hwfr hlowr (some v) tail]
      have hacc : (match getProp rest pID with
          | some w => some w
          | none => (some v : Option Line)) =
        (match getProp ((pID, v) :: rest) pID with
          | some w => some w
          | none => acc) := by
        cases hg : getProp rest pID with
        | some w => simp [getProp, hg]
        | none => simp [getProp, hg]
      rw [hacc]
    · have hmatch := legacyIdMatch_entry_ne k v hkne hkc hkid
      rw [hmatch]
      show Legacy.idScan true acc (List.map renderEntry rest ++ tail) =
        Legacy.idScan true
          (match getProp ((k, v) :: rest) pID with
           | some w => some w
           | none => acc) tail
      rw [ih hwfr hlowr acc tail]
      have hacc : (match getProp rest pID with
          | some w => some w
          | none => acc) =
        (match getProp ((k, v) :: rest) pID with
          | some w => some w
          | none => acc) := by
        cases hg : getProp rest pID with
        | some w => simp [getProp, hg]
        | none => simp [getProp, hg, hkid]
      rw [hacc]

theorem idScan_render (dr : Option (List (Line × Line)))
    (hwf : ∀ kv ∈ entriesOf dr, wfEntry kv = true)
    (hlow : ∀ kv ∈ entriesOf dr,
      (!(decide (kv.1 = pID)) || kv.2.all isHexDash) = true)
    (acc : Option Line) (tail : List Line) (htail : tailOk tail = true) :
    Legacy.idScan false acc (renderDrawer dr ++ tail) =
      (match getProp (entriesOf dr) pID with
       | some v => some v
       | none => acc) := by
  cases dr with
  | none => exact idScan_stop acc tail htail
  | some es =>
    have hP : ∀ (a : Option Line) ls,
        Legacy.idScan false a (pPROPERTIES :: ls) = Legacy.idScan true a ls :=
      fun a ls => rfl
    have hE : ∀ (a : Option Line) ls,
        Legacy.idScan true a (pEND :: ls) = Legacy.idScan false a ls :=
      fun a ls => rfl
    have harr : renderDrawer (some es) ++ tail =
        pPROPERTIES :: (List.map renderEntry es ++ ([pEND] ++ tail)) := by
      rw [renderDrawer]
      simp [List.append_assoc]
    rw [harr, hP]
    rw [idScan_true_entries es hwf hlow acc ([pEND] ++ tail)]
    rw [List.singleton_append, hE]
    rw [idScan_stop _ tail htail]
    rfl

theorem loop_nh_none (chunk : List Line)
    (h : ∀ l ∈ chunk, headingMatch l = none) :
    ∀ (c : List Line) (a : List (List Char)) (rest : List Line),
      Legacy.loop none c a (chunk ++ rest) = Legacy.loop none c a rest := by
  induction chunk with
  | nil => intro c a rest; rfl
  | cons l ls ih =>
    intro c a rest
    rw [List.cons_append]
    simp only [Legacy.loop, h l (List.mem_cons_self l ls)]
    exact ih (fun q hq => h q (List.mem_cons_of_mem l hq)) c a rest

theorem loop_nh_some (chunk : List Line)
    (h : ∀ l ∈ chunk, headingMatch l = none) :
    ∀ (od : OpenNote) (c : List Line) (a : List (List Char))
      (rest : List Line),
      Legacy.loop (some od) c a (chunk ++ rest) =
        Legacy.loop (some od) (c ++ chunk) (a ++ scanBody chunk) rest := by
  induction chunk with
  | nil => intro od c a rest; simp [scanBody]
  | cons l ls ih =>
    intro od c a rest
    rw [List.cons_append]
    simp only [Legacy.loop, h l (List.mem_cons_self l ls)]
    rw [ih (fun q hq => h q (List.mem_cons_of_mem l hq)) od (c ++ [l])
      (a ++ scanLine l) rest]
    rw [scanBody_cons]
    simp only [List.append_assoc, List.singleton_append]

theorem phaseA_headline (lvl : Nat) (hl : 1 ≤ lvl) (t : Line)
    (ht : wfTitle t = true) (ls : List Line) :
    Pkg.phaseA none false [] [] ((List.replicate lvl '*' ++ ' ' :: t) :: ls) =
      ⟨none, [], [], (List.replicate lvl '*' ++ ' ' :: t) :: ls⟩ := by
  obtain ⟨_, hstrip, htlm, hnp, hne, hbrk⟩ := headline_facts lvl hl t ht
  simp only [Pkg.phaseA, htlm]
  rw [hstrip]
  rw [if_neg hnp, if_neg hne, if_neg (by decide : ¬ (false = true)),
    if_pos hbrk]

theorem extractSpec_headline (lines : List Line)
    (h : Pkg.phaseA none false [] [] lines = ⟨none, [], [], lines⟩) :
    extractSpec lines = notesFromSegs [] [] (segsOf lines) := by
  unfold extractSpec
  rw [h]
  rfl

theorem segsOf_render (d : List WfSeg) (hwf : ∀ s ∈ d, wfSeg s = true) :
    segsOf (renderDoc d) =
      d.map (fun s =>
        (⟨s.level, s.title, entriesOf s.drawer, s.body⟩ : Seg)) := by
  induction d with
  | nil => simp [renderDoc, segsOf]
  | cons s rest ih =>
    obtain ⟨hlvl, ht, hdr, hbody⟩ :=
      wfSeg_parts s (hwf s (List.mem_cons_self s rest))
    have hwfr : ∀ q ∈ rest, wfSeg q = true :=
      fun q hq => hwf q (List.mem_cons_of_mem s hq)
    obtain ⟨hhm, _, _, _, _, _⟩ := headline_facts s.level hlvl s.title ht
    rw [renderDoc_first s rest]
    rw [segsOf_cons_heading _ _ (s.level, s.title) hhm]
    have hpd := parseDrawer_render s.drawer hdr (s.body ++ renderDoc rest)
      (tailOk_render s.body rest hbody hwfr)
    rw [hpd]
    have hbnh : ∀ l ∈ s.body, notHeading l = true := fun l hl =>
      notHeading_of l (wfBodyLine_parts l (hbody l hl)).1
    obtain ⟨htw, hdw⟩ := takeWhile_nh_append s.body (renderDoc rest) hbnh
      (renderDoc_head_nh rest hwfr)
    simp only [htw, hdw]
    rw [ih hwfr]
    rw [List.map_cons]

theorem notesFromSegs_map (d : List WfSeg) :
    notesFromSegs [] [] (d.map (fun s =>
        (⟨s.level, s.title, entriesOf s.drawer, s.body⟩ : Seg))) =
      pkgNotesOf d := by
  induction d with
  | nil => rfl
  | cons s rest ih =>
    cases hg : getProp (entriesOf s.drawer) pID with
    | some i =>
      simp only [List.map_cons, notesFromSegs, pkgNotesOf, hg,
        List.nil_append]
      rw [ih]
    | none =>
      simp only [List.map_cons, notesFromSegs, pkgNotesOf, hg]
      exact ih

theorem pkg_render (d : List WfSeg) (hwf : ∀ s ∈ d, wfSeg s = true) :
    Pkg.extract_notes_from_file (renderDoc d) = pkgNotesOf d := by
  rw [extract_eq_extractSpec]
  cases d with
  | nil =>
    show extractSpec [] = []
    rw [extractSpec_headline [] rfl]
    simp [segsOf, notesFromSegs]
  | cons s rest =>
    obtain ⟨hlvl, ht, _, _⟩ := wfSeg_parts s (hwf s (List.mem_cons_self s rest))
    rw [renderDoc_first s rest]
    rw [extractSpec_headline _ (phaseA_headline s.level hlvl s.title ht _)]
    rw [← renderDoc_first s rest]
    rw [segsOf_render (s :: rest) hwf]
    rw [notesFromSegs_map]

theorem legacy_render (d : List WfSeg) (hwf : ∀ s ∈ d, wfSeg s = true)
    (hlow : ∀ s ∈ d, idLower s = true) :
    (∀ (od : OpenNote) (c : List Line) (a : List (List Char)),
        Legacy.loop (some od) c a (renderDoc d) =
          closeNote od c a :: legacyNotesOf d) ∧
    Legacy.loop none [] [] (renderDoc d) = legacyNotesOf d := by
  induction d with
  | nil => exact ⟨fun od c a => rfl, rfl⟩
  | cons s rest ih =>
    obtain ⟨ihs, ihn⟩ := ih (fun q hq => hwf q (List.mem_cons_of_mem s hq))
      (fun q hq => hlow q (List.mem_cons_of_mem s hq))
    obtain ⟨hlvl, ht, hdr, hbody⟩ :=
      wfSeg_parts s (hwf s (List.mem_cons_self s rest))
    have hwfr : ∀ q ∈ rest, wfSeg q = true :=
      fun q hq => hwf q (List.mem_cons_of_mem s hq)
    have hlows := hlow s (List.mem_cons_self s rest)
    rw [idLower, List.all_eq_true] at hlows
    obtain ⟨hhm, _, _, _, _, _⟩ := headline_facts s.level hlvl s.title ht
    have htails : tailOk (s.body ++ renderDoc rest) = true :=
      tailOk_render s.body rest hbody hwfr
    have hScan : Legacy.idScan false none
        (renderDrawer s.drawer ++ (s.body ++ renderDoc rest)) =
        getProp (entriesOf s.drawer) pID := by
      rw [idScan_render s.drawer hdr hlows none _ htails]
      cases getProp (entriesOf s.drawer) pID <;> rfl
    have hfacts := drawer_line_facts s.drawer hdr
    have hnh : ∀ l ∈ renderDrawer s.drawer ++ s.body,
        headingMatch l = none := by
      intro l hl
      rw [List.mem_append] at hl
      cases hl with
      | inl hl => exact (hfacts l hl).1
      | inr hl => exact (wfBodyLine_parts l (hbody l hl)).1
    have hscan : scanBody (renderDrawer s.drawer ++ s.body) =
        scanBody s.body := by
      rw [scanBody_append,
        scanBody_nil_of (renderDrawer s.drawer) (fun l hl => (hfacts l hl).2),
        List.nil_append]
    have hinner : Legacy.loop
        ((Legacy.idScan false none
            (renderDrawer s.drawer ++ (s.body ++ renderDoc rest))).map
          (fun i => (i, s.title, s.level))) [] []
        (renderDrawer s.drawer ++ (s.body ++ renderDoc rest)) =
        legacyNotesOf (s :: rest) := by
      rw [hScan]
      cases hg : getProp (entriesOf s.drawer) pID with
      | some i =>
        show Legacy.loop (some (i, s.title, s.level)) [] []
            (renderDrawer s.drawer ++ (s.body ++ renderDoc rest)) =
          legacyNotesOf (s :: rest)
        rw [show (renderDrawer s.drawer ++ (s.body ++ renderDoc rest)) =
            ((renderDrawer s.drawer ++ s.body) ++ renderDoc rest) from by
          rw [List.append_assoc]]
        rw [loop_nh_some (renderDrawer s.drawer ++ s.body) hnh
          (i, s.title, s.level) [] [] (renderDoc rest)]
        rw [ihs (i, s.title, s.level) ([] ++ (renderDrawer s.drawer ++ s.body))
          ([] ++ scanBody (renderDrawer s.drawer ++ s.body))]
        rw [List.nil_append, List.nil_append, hscan]
        have hrhs : legacyNotesOf (s :: rest) =
            ⟨i, s.title, joinLines (renderDrawer s.drawer ++ s.body), s.level,
              scanBody s.body⟩ :: legacyNotesOf rest := by
          simp only [legacyNotesOf, hg]
        rw [hrhs]
        rfl
      | none =>
        show Legacy.loop none [] []
            (renderDrawer s.drawer ++ (s.body ++ renderDoc rest)) =
          legacyNotesOf (s :: rest)
        rw [show (renderDrawer s.drawer ++ (s.body ++ renderDoc rest)) =
            ((renderDrawer s.drawer ++ s.body) ++ renderDoc rest) from by
          rw [List.append_assoc]]
        rw [loop_nh_none (renderDrawer s.drawer ++ s.body) hnh [] []
          (renderDoc rest)]
        rw [ihn]
        simp only [legacyNotesOf, hg]
    constructor
    · intro od c a
      rw [renderDoc_first s rest]
      simp only [Legacy.loop, hhm]
      rw [hinner]
    · rw [renderDoc_first s rest]
      simp only [Legacy.loop, hhm]
      rw [hinner]

theorem legacy_pkg_proj (d : List WfSeg) :
    (legacyNotesOf d).map projNote = (pkgNotesOf d).map projNote := by
  induction d with
  | nil => rfl
  | cons s rest ih =>
    cases hg : getProp (entriesOf s.drawer) pID with
    | some i =>
      simp only [legacyNotesOf, pkgNotesOf, hg, List.map_cons, projNote]
      rw [ih]
    | none =>
      simp only [legacyNotesOf, pkgNotesOf, hg]
      exact ih

theorem getLastQ_ex : ∀ (l : List Char), l ≠ [] → ∃ a, l.getLast? = some a := by
  intro l
  induction l with
  | nil => intro h; exact absurd rfl h
  | cons a as ih =>
    intro _
    cases as with
    | nil => exact ⟨a, rfl⟩
    | cons b bs =>
      obtain ⟨x, hx⟩ := ih (by simp)
      exact ⟨x, by rw [List.getLast?_cons_cons]; exact hx⟩

theorem hexChars_facts :
    ∀ x ∈ hexChars, isWsChar x = false ∧ ¬(x = (Char.ofNat 10)) ∧
      ¬(x = '[') := by decide

theorem wfVal_hex (v : Line) (hv : v ≠ [])
    (hvc : ∀ x ∈ v, x ∈ hexChars) : wfVal v = true := by
  rw [wfVal, Bool.and_eq_true, Bool.and_eq_true, Bool.and_eq_true]
  refine ⟨⟨⟨?_, ?_⟩, ?_⟩, ?_⟩
  · cases v with
    | nil => exact absurd rfl hv
    | cons a as => rfl
  · cases v with
    | nil => exact absurd rfl hv
    | cons a as =>
      show (!(isWsChar a)) = true
      rw [(hexChars_facts a (hvc a (List.mem_cons_self a as))).1]
      rfl
  · obtain ⟨a, ha⟩ := getLastQ_ex v hv
    rw [ha]
    show (!(isWsChar a)) = true
    rw [(hexChars_facts a (hvc a (mem_of_getLastQ ha))).1]
    rfl
  · rw [List.all_eq_true]
    intro x hx
    obtain ⟨_, h2, h3⟩ := hexChars_facts x (hvc x hx)
    simp [h2, h3]

/-- Claim C9 (amended): the packaged extractor treats the identifier as an
opaque, case-sensitive string: on a single-heading document whose drawer
carries one identifier entry whose value is hexadecimal-with-dashes in either
case, it creates exactly one note whose identifier equals that value
character for character.  The legacy extractor does so only for lower-case
values (to which the conditional legacy conjunct is restricted, with the
drawer lines appearing in the note content); on other values it truncates,
as the counterexample shows. -/
theorem claim_C9_amended (t v : Line) (ht : wfTitle t = true) (hv : v ≠ [])
    (hvc : ∀ x ∈ v, x ∈ hexChars) :
    Pkg.extract_notes_from_file (idDoc t v) = [⟨v, t, [], 1, []⟩] ∧
    ((∀ x ∈ v, isHexDash x = true) →
      Legacy.extract_notes_from_file (idDoc t v) =
        [⟨v, t, joinLines (renderDrawer (some [(pID, v)])), 1, []⟩]) := by
  have hwv := wfVal_hex v hv hvc
  have hwfs : wfSeg ⟨1, t, some [(pID, v)], []⟩ = true := by
    have hk : wfKey pID = true := by decide
    simp [wfSeg, wfEntry, ht, hwv, hk]
  have hwfd : ∀ q ∈ [(⟨1, t, some [(pID, v)], []⟩ : WfSeg)],
      wfSeg q = true := by
    intro q hq
    rw [List.mem_singleton] at hq
    subst hq
    exact hwfs
  have hg : getProp [(pID, v)] pID = some v := by simp [getProp]
  constructor
  · rw [idDoc, pkg_render _ hwfd]
    simp [pkgNotesOf, entriesOf, hg, joinLines, scanBody]
  · intro hhex
    have hlowd : ∀ q ∈ [(⟨1, t, some [(pID, v)], []⟩ : WfSeg)],
        idLower q = true := by
      intro q hq
      rw [List.mem_singleton] at hq
      subst hq
      have hall : v.all isHexDash = true := List.all_eq_true.mpr hhex
      simp [idLower, entriesOf, hall]
    rw [idDoc, Legacy.extract_notes_from_file,
      (legacy_render _ hwfd hlowd).2]
    simp [legacyNotesOf, entriesOf, hg, scanBody]

/-- Claim C9 witness: a lower-case hexadecimal-with-dashes identifier is
preserved in full by both extractors; the legacy content keeps the drawer
lines. -/
theorem claim_C9_witness :
    Pkg.extract_notes_from_file
        (idDoc (("Note").toList) (("abc-123").toList)) =
      [⟨("abc-123").toList, ("Note").toList, [], 1, []⟩] ∧
    Legacy.extract_notes_from_file
        (idDoc (("Note").toList) (("abc-123").toList)) =
      [⟨("abc-123").toList, ("Note").toList,
        joinLines (renderDrawer (some [(pID, ("abc-123").toList)])), 1, []⟩] :=
  ⟨(claim_C9_amended (("Note").toList) (("abc-123").toList) (by decide)
      (by decide) (by decide)).1,
   (claim_C9_amended (("Note").toList) (("abc-123").toList) (by decide)
      (by decide) (by decide)).2 (by decide)⟩

/-- Claim C9 counterexample: on an upper-case hexadecimal identifier the
legacy extractor keeps only the first character, while the packaged
extractor preserves the full value. -/
theorem claim_C9_counterexample :
    Legacy.extract_notes_from_file
        (idDoc (("H").toList) (("8AADAE-AB7D").toList)) =
      [⟨("8").toList, ("H").toList,
        ((":PROPERTIES:\n:ID: 8AADAE-AB7D\n:END:\n").toList), 1, []⟩] ∧
    Pkg.extract_notes_from_file
        (idDoc (("H").toList) (("8AADAE-AB7D").toList)) =
      [⟨("8AADAE-AB7D").toList, ("H").toList, [], 1, []⟩] ∧
    ¬(("8").toList = ("8AADAE-AB7D").toList) :=
  ⟨rfl, rfl, by decide⟩

/-- Claim C10 (amended): the two extractors are not equivalent, but on
well-formed heading documents they agree up to note contents: the packaged
extractor returns one note per identified segment with the body as content,
the legacy extractor returns notes with the same identifiers, titles, levels
and attachment lists but additionally keeps the property-drawer lines inside
the content. -/
theorem claim_C10_amended (d : List WfSeg) (h : wfDoc d = true) :
    Pkg.extract_notes_from_file (renderDoc d) = pkgNotesOf d ∧
    Legacy.extract_notes_from_file (renderDoc d) = legacyNotesOf d ∧
    (Legacy.extract_notes_from_file (renderDoc d)).map projNote =
      (Pkg.extract_notes_from_file (renderDoc d)).map projNote := by
  rw [wfDoc, Bool.and_eq_true] at h
  have h1 := List.all_eq_true.mp h.1
  have h2 := List.all_eq_true.mp h.2
  have hp := pkg_render d h1
  have hl : Legacy.extract_notes_from_file (renderDoc d) = legacyNotesOf d := by
    rw [Legacy.extract_notes_from_file]
    exact (legacy_render d h1 h2).2
  refine ⟨hp, hl, ?_⟩
  rw [hp, hl, legacy_pkg_proj]

/-- Claim C10 witness: a two-segment well-formed document, one identified
segment with a body line and one orphan segment, evaluated through the
amended equivalence-up-to-content statement. -/
theorem claim_C10_witness :
    wfDoc [⟨1, ("Alpha").toList, some [(pID, ("abc-1").toList)],
        [("hello").toList]⟩,
      ⟨2, ("Beta").toList, none, []⟩] = true ∧
    (Pkg.extract_notes_from_file (renderDoc
        [⟨1, ("Alpha").toList, some [(pID, ("abc-1").toList)],
          [("hello").toList]⟩,
         ⟨2, ("Beta").toList, none, []⟩]) =
      pkgNotesOf [⟨1, ("Alpha").toList, some [(pID, ("abc-1").toList)],
          [("hello").toList]⟩,
        ⟨2, ("Beta").toList, none, []⟩] ∧
     Legacy.extract_notes_from_file (renderDoc
        [⟨1, ("Alpha").toList, some [(pID, ("abc-1").toList)],
          [("hello").toList]⟩,
         ⟨2, ("Beta").toList, none, []⟩]) =
      legacyNotesOf [⟨1, ("Alpha").toList, some [(pID, ("abc-1").toList)],
          [("hello").toList]⟩,
        ⟨2, ("Beta").toList, none, []⟩] ∧
     (Legacy.extract_notes_from_file (renderDoc
        [⟨1, ("Alpha").toList, some [(pID, ("abc-1").toList)],
          [("hello").toList]⟩,
         ⟨2, ("Beta").toList, none, []⟩])).map projNote =
      (Pkg.extract_notes_from_file (renderDoc
        [⟨1, ("Alpha").toList, some [(pID, ("abc-1").toList)],
          [("hello").toList]⟩,
         ⟨2, ("Beta").toList, none, []⟩])).map projNote) :=
  ⟨by decide, claim_C10_amended _ (by decide)⟩

/-- Claim C10 counterexample: on a well-formed one-segment document with a
body line, the two extractors return different note sequences, because the
legacy extractor keeps the drawer lines in the content. -/
theorem claim_C10_counterexample :
    Pkg.extract_notes_from_file (renderDoc
        [⟨1, ("Note").toList, some [(pID, ("ab").toList)],
          [("body").toList]⟩]) =
      [⟨("ab").toList, ("Note").toList, ("body\n").toList, 1, []⟩] ∧
    Legacy.extract_notes_from_file (renderDoc
        [⟨1, ("Note").toList, some [(pID, ("ab").toList)],
          [("body").toList]⟩]) =
      [⟨("ab").toList, ("Note").toList,
        ((":PROPERTIES:\n:ID: ab\n:END:\nbody\n").toList), 1, []⟩] ∧
    ¬(Pkg.extract_notes_from_file (renderDoc
        [⟨1, ("Note").toList, some [(pID, ("ab").toList)],
          [("body").toList]⟩]) =
      Legacy.extract_notes_from_file (renderDoc
        [⟨1, ("Note").toList, some [(pID, ("ab").toList)],
          [("body").toList]⟩])) :=
  ⟨rfl, rfl, by decide⟩

end Org2Obs